import Mathlib

/-!
# venv-server: a verification development

A shallow embedding of `main.go` of `simon-engledew/venv-server`.

* Go strings that hold paths are lists of characters, `GoString`.
* The pieces of the Go standard library and of the Docker libraries that the
  program calls (`path/filepath`, `strings`, `archive/tar`, `io.Pipe`,
  `archive.ReplaceFileTarWrapper`, `jsonmessage.DisplayJSONMessagesStream`)
  are modelled after their implementations, at the level of archive entries.
* The goroutine of `rewriteTarHeaders` and its consumer are connected by a
  synchronous pipe; the consumer is taken to read until the writer closes, so
  the run of the goroutine is a deterministic sequence of steps, recorded in a
  trace.
* The request handler is a function of the answers of its environment (file
  system, request body, engine); it returns the engine calls it made, what it
  wrote to the response, and the panics it raised. Deferred calls are kept on
  an explicit stack that is run when the body returns or panics.
* A panic in the goroutine of `rewriteTarHeaders` is not recovered: the Go
  runtime ends the process. The goroutine and the handler race, so how many of
  the handler's deferred calls still run before the process ends is an answer
  of the environment too.
-/

namespace VenvServer

/-! ## Strings and `path/filepath` (Unix) -/

/-- Go strings holding paths, as lists of characters. -/
abbrev GoString := List Char

/-- Byte slices. -/
abbrev Bytes := List UInt8

/-- The function `os.IsPathSeparator` on Unix. -/
def isPathSeparator (c : Char) : Bool := c == '/'

/-- The test `r == n || os.IsPathSeparator(path[r])` on the rest of the path
from index `r` on. -/
def atBoundary : List Char → Bool
  | [] => true
  | c :: _ => isPathSeparator c

/-- The backtracking step of `filepath.Clean` for a `..` element, after the
first `out.w--`: `for out.w > dotdot && !os.IsPathSeparator(out.index(out.w))`
do `out.w--`. The buffer is kept reversed, so that its head is the last byte
written; `x` is the byte at index `out.w`, the one dropped last. -/
def backtrack (dotdot : Nat) : Char → List Char → List Char
  | _, [] => []
  | x, c :: l =>
    if dotdot < (c :: l).length ∧ isPathSeparator x = false then backtrack dotdot c l
    else c :: l

/-- The loop `for r < n` of `filepath.Clean`. `path` is the part of the input
from index `r` on, `out` the output buffer (a `lazybuf`) reversed, so that
`out.w` is `out.length`. Every turn consumes at least one byte of the input,
so a fuel of the length of the input is enough. -/
def cleanLoop (rooted : Bool) : Nat → List Char → List Char → Nat → List Char
  | 0, _, out, _ => out
  | fuel + 1, path, out, dotdot =>
    match path with
    | [] => out
    | c :: rest =>
      if isPathSeparator c = true then
        -- empty path element
        cleanLoop rooted fuel rest out dotdot
      else if c = '.' ∧ atBoundary rest = true then
        -- . element
        cleanLoop rooted fuel rest out dotdot
      else if c = '.' ∧ rest.head? = some '.' ∧ atBoundary rest.tail = true then
        -- .. element: remove to last separator
        if dotdot < out.length then
          match out with
          | [] => cleanLoop rooted fuel rest.tail out dotdot
          | x :: l => cleanLoop rooted fuel rest.tail (backtrack dotdot x l) dotdot
        else if rooted = false then
          let out1 := if 0 < out.length then '/' :: out else out
          cleanLoop rooted fuel rest.tail ('.' :: '.' :: out1) (out1.length + 2)
        else
          cleanLoop rooted fuel rest.tail out dotdot
      else
        -- real path element: add slash if needed, copy element
        let out1 :=
          if (rooted = true ∧ out.length ≠ 1) ∨ (rooted = false ∧ out.length ≠ 0) then '/' :: out
          else out
        cleanLoop rooted fuel (path.dropWhile fun d => !isPathSeparator d)
          ((path.takeWhile fun d => !isPathSeparator d).reverse ++ out1) dotdot

/-- The function `filepath.Clean` on Unix (no volume name). -/
def Clean (path : GoString) : GoString :=
  match path with
  | [] => ['.']
  | c :: _ =>
    let rooted := isPathSeparator c
    let out :=
      if rooted = true then cleanLoop rooted path.length path.tail ['/'] 1
      else cleanLoop rooted path.length path [] 0
    if out.length = 0 then ['.'] else out.reverse

/-- The function `strings.Join(elems, "/")`. -/
def joinSep : List GoString → GoString
  | [] => []
  | [c] => c
  | c :: d :: cs => c ++ '/' :: joinSep (d :: cs)

/-- The function `filepath.Join`: the elements from the first non-empty one
on, joined by the separator and cleaned; the empty string when all are empty. -/
def Join : List GoString → GoString
  | [] => []
  | e :: rest => if e ≠ [] then Clean (joinSep (e :: rest)) else Join rest

/-- The function `filepath.Dir` on Unix: `Clean(path[:i+1])`, where `i` is the
index of the last separator. -/
def Dir (path : GoString) : GoString :=
  Clean (path.reverse.dropWhile fun d => !isPathSeparator d).reverse

/-- The function `filepath.Base` on Unix: the last element of the path, after
its trailing separators are stripped. -/
def Base (path : GoString) : GoString :=
  if path = [] then ['.']
  else
    let stripped := path.reverse.dropWhile isPathSeparator
    let last := (stripped.takeWhile fun d => !isPathSeparator d).reverse
    if last = [] then ['/'] else last

/-- The function `strings.HasPrefix`. -/
def hasPrefix : GoString → GoString → Bool
  | _, [] => true
  | [], _ :: _ => false
  | c :: s, d :: p => c == d && hasPrefix s p

/-- The function `strings.TrimPrefix`. -/
def trimPrefix (s pre : GoString) : GoString :=
  if hasPrefix s pre = true then s.drop pre.length else s

/-- The function `strings.Split(s, "/")`: the path components of a name. -/
def splitSep : GoString → List GoString
  | [] => [[]]
  | c :: cs =>
    if c = '/' then [] :: splitSep cs
    else
      match splitSep cs with
      | [] => [[c]]
      | x :: xs => (c :: x) :: xs

/-- A normal path component: not empty, not `.`, not `..`, without separator. -/
def IsComp (c : GoString) : Prop :=
  c ≠ [] ∧ c ≠ ['.'] ∧ c ≠ ['.', '.'] ∧ '/' ∉ c

instance instDecidableIsComp (c : GoString) : Decidable (IsComp c) := by
  unfold IsComp
  exact inferInstance

/-! ## Errors, archive entries, `io.Pipe` and `archive/tar` -/

/-- Go error values that the program can meet. -/
inductive Err
  /-- The value `io.EOF`. -/
  | eof
  /-- The value `io.ErrClosedPipe`. -/
  | closedPipe
  /-- The value `tar.ErrWriteTooLong`. -/
  | writeTooLong
  /-- The value `tar.ErrWriteAfterClose`. -/
  | writeAfterClose
  /-- The error `archive/tar: missed writing n bytes` of `Writer.Flush`. -/
  | missedWriting (n : Nat)
  /-- Any other error, told apart by a code. -/
  | other (code : Nat)
  deriving DecidableEq, Repr

/-- The fields of `tar.Header` the program reads or sets. `size` is the length
of the body that the format carries for the entry. -/
structure Header where
  name : GoString
  size : Nat
  mode : Nat
  uid : Nat
  gid : Nat
  typeflag : Char
  modTime : Nat
  accessTime : Nat
  changeTime : Nat
  deriving DecidableEq, Repr

/-- What a `tar.Reader` over an input stream yields: `done e` when `Next`
returns the error `e` (`io.EOF` at the regular end of the archive), and
`entry h content readErr rest` when `Next` returns the header `h`, reading the
body then yields the bytes `content` followed by `io.EOF` (`readErr = none`)
or by the error `readErr`, and `rest` is what follows. -/
inductive TarInput
  | done (e : Err)
  | entry (h : Header) (content : Bytes) (readErr : Option Err) (rest : TarInput)
  deriving DecidableEq, Repr

/-- The input of a well-formed archive given by its entries. -/
def TarInput.ofEntries : List (Header × Bytes) → TarInput
  | [] => .done .eof
  | (h, c) :: rest => .entry h c none (TarInput.ofEntries rest)

/-- What is written to the pipe: an encoded header, bytes of a body, or a run
of zero bytes (block padding, or a 512 byte block of the end-of-archive
marker). The encoding of headers is taken to be lossless. -/
inductive Chunk
  | header (h : Header)
  | data (b : Bytes)
  | zeros (n : Nat)
  deriving DecidableEq, Repr

/-- An `io.Pipe` whose reader reads until the writer closes: the chunks handed
to the reader so far, and `werr`, the error stored by the writer's
`Close`/`CloseWithError` (what the reader's next `Read` returns once it has
drained the chunks). -/
structure Pipe where
  delivered : List Chunk
  werr : Option Err
  deriving DecidableEq, Repr

/-- The method `PipeWriter.Write`: fails with `io.ErrClosedPipe` once the
writer is closed (also for an empty slice), else hands the chunk over. -/
def Pipe.write (p : Pipe) (c : Chunk) : Pipe × Option Err :=
  match p.werr with
  | some _ => (p, some .closedPipe)
  | none => ({ p with delivered := p.delivered ++ [c] }, none)

/-- The method `PipeWriter.CloseWithError`: stores the error (the first one
stored wins) and always returns nil. -/
def Pipe.closeWithError (p : Pipe) (e : Err) : Pipe :=
  match p.werr with
  | some _ => p
  | none => { p with werr := some e }

/-- The method `PipeWriter.Close`, which is `CloseWithError(nil)`: the reader
sees `io.EOF`. It always returns nil. -/
def Pipe.close (p : Pipe) : Pipe × Option Err :=
  (p.closeWithError .eof, none)

/-- The state of a `tar.Writer`: its sticky error `err`, the bytes of the
current body still to be written (`curr.logicalRemaining()`), and the padding
owed after the body (`pad`). -/
structure TarWriter where
  err : Option Err
  remaining : Nat
  pad : Nat
  deriving DecidableEq, Repr

/-- The function `tar.NewWriter`. -/
def TarWriter.new : TarWriter := { err := none, remaining := 0, pad := 0 }

/-- The function `blockPadding` of `archive/tar`. -/
def blockPadding (size : Nat) : Nat := (512 - size % 512) % 512

/-- The method `tar.Writer.Flush`. -/
def TarWriter.Flush (tw : TarWriter) (p : Pipe) : TarWriter × Pipe × Option Err :=
  match tw.err with
  | some e => (tw, p, some e)
  | none =>
    if 0 < tw.remaining then (tw, p, some (.missedWriting tw.remaining))
    else
      match p.write (.zeros tw.pad) with
      | (p1, some e) => ({ tw with err := some e }, p1, some e)
      | (p1, none) => ({ tw with pad := 0 }, p1, none)

/-- The method `tar.Writer.WriteHeader`: flush the previous entry, then write
the header block and expect `h.size` bytes of body. A failed write of the
block is kept as the sticky error. -/
def TarWriter.WriteHeader (tw : TarWriter) (p : Pipe) (h : Header) :
    TarWriter × Pipe × Option Err :=
  match tw.Flush p with
  | (tw1, p1, some e) => (tw1, p1, some e)
  | (tw1, p1, none) =>
    match p1.write (.header h) with
    | (p2, some e) => ({ tw1 with err := some e }, p2, some e)
    | (p2, none) => ({ tw1 with remaining := h.size, pad := blockPadding h.size }, p2, none)

/-- The method `tar.Writer.Write`: at most `remaining` bytes are written;
a longer slice gives `ErrWriteTooLong`, which is not sticky, while an error of
the underlying writer is. -/
def TarWriter.Write (tw : TarWriter) (p : Pipe) (b : Bytes) : TarWriter × Pipe × Option Err :=
  match tw.err with
  | some e => (tw, p, some e)
  | none =>
    let overwrite : Bool := decide (tw.remaining < b.length)
    let b1 := b.take tw.remaining
    if b1 = [] then
      if overwrite = true then (tw, p, some .writeTooLong) else (tw, p, none)
    else
      match p.write (.data b1) with
      | (p1, some e) => ({ tw with err := some e }, p1, some e)
      | (p1, none) =>
        let tw1 := { tw with remaining := tw.remaining - b1.length }
        if overwrite = true then (tw1, p1, some .writeTooLong) else (tw1, p1, none)

/-- The method `tar.Writer.Close`: flush, then the trailer of two zero blocks;
afterwards every action is invalid. -/
def TarWriter.Close (tw : TarWriter) (p : Pipe) : TarWriter × Pipe × Option Err :=
  if tw.err = some .writeAfterClose then (tw, p, none)
  else
    match tw.err with
    | some e => (tw, p, some e)
    | none =>
      match tw.Flush p with
      | (tw1, p1, some e) => ({ tw1 with err := some .writeAfterClose }, p1, some e)
      | (tw1, p1, none) =>
        match p1.write (.zeros 512) with
        | (p2, some e) => ({ tw1 with err := some .writeAfterClose }, p2, some e)
        | (p2, none) =>
          match p2.write (.zeros 512) with
          | (p3, e) => ({ tw1 with err := some .writeAfterClose }, p3, e)

/-- The call `pools.Copy(tarWriter, tarReader)` for one entry: the bytes read
are written to the tar writer; a write error ends the copy, and so does a read
error other than `io.EOF`. -/
def copyEntry (tw : TarWriter) (p : Pipe) (content : Bytes) (readErr : Option Err) :
    TarWriter × Pipe × Option Err :=
  let w := if content = [] then (tw, p, none) else tw.Write p content
  match w with
  | (tw1, p1, some e) => (tw1, p1, some e)
  | (tw1, p1, none) =>
    match readErr with
    | none => (tw1, p1, none)
    | some e => if e = .eof then (tw1, p1, none) else (tw1, p1, some e)

/-- A value passed to `panic`: the format of the message and the error. -/
structure Panic where
  format : String
  err : Option Err
  deriving DecidableEq, Repr

/-- The function `closeOrPanic`, applied to the result of `closer.Close()`:
an error other than `io.ErrClosedPipe` is raised as a panic. -/
def closeOrPanic (format : String) (closeErr : Option Err) : List Panic :=
  match closeErr with
  | none => []
  | some e => if e = .closedPipe then [] else [{ format := format, err := some e }]

/-! ## `rewriteTarHeaders` -/

/-- The steps of the goroutine of `rewriteTarHeaders`, in the order they
happen. -/
inductive Step
  /-- The call `tarReader.Next()` returned a header. -/
  | next (h : Header)
  /-- The call `tarReader.Next()` returned an error (`io.EOF` included). -/
  | nextErr (e : Err)
  /-- The call `tarWriter.WriteHeader(h)` and its result. -/
  | writeHeader (h : Header) (r : Option Err)
  /-- The call `pools.Copy(tarWriter, tarReader)` and its result. -/
  | copy (r : Option Err)
  /-- The call `tarWriter.Flush()` at the end of the input and its result. -/
  | flush (r : Option Err)
  /-- The call `pipeWriter.CloseWithError(e)`. -/
  | closeWithError (e : Err)
  /-- The call `pipeWriter.Close()` after the loop. -/
  | pipeClose
  /-- The deferred `tarWriter.Close()` and its result. -/
  | tarClose (r : Option Err)
  /-- The deferred `inputTarStream.Close()` and its result. -/
  | inputClose (r : Option Err)
  deriving DecidableEq, Repr

/-- The state in which the loop of the goroutine is left: `broke` tells
whether it was left by `break` (the end of the input) or by `return`. -/
structure LoopEnd where
  tw : TarWriter
  pipe : Pipe
  trace : List Step
  logs : List Err
  broke : Bool
  deriving DecidableEq, Repr

/-- The `for` loop of the goroutine of `rewriteTarHeaders`. -/
def rewriteLoop (fn : Header → Header) : TarInput → TarWriter → Pipe → LoopEnd
  | .done e, tw, p =>
    if e = .eof then
      match tw.Flush p with
      | (tw1, p1, fe) =>
        { tw := tw1, pipe := p1, trace := [.nextErr e, .flush fe],
          logs := fe.toList, broke := true }
    else
      { tw := tw, pipe := p.closeWithError e, trace := [.nextErr e, .closeWithError e],
        logs := [], broke := false }
  | .entry h content readErr rest, tw, p =>
    match tw.WriteHeader p (fn h) with
    | (tw1, p1, some e) =>
      { tw := tw1, pipe := p1.closeWithError e,
        trace := [.next h, .writeHeader (fn h) (some e), .closeWithError e],
        logs := [], broke := false }
    | (tw1, p1, none) =>
      match copyEntry tw1 p1 content readErr with
      | (tw2, p2, some e) =>
        { tw := tw2, pipe := p2.closeWithError e,
          trace := [.next h, .writeHeader (fn h) none, .copy (some e), .closeWithError e],
          logs := [], broke := false }
      | (tw2, p2, none) =>
        let l := rewriteLoop fn rest tw2 p2
        { l with trace := .next h :: .writeHeader (fn h) none :: .copy none :: l.trace }

/-- The result of a run of the goroutine of `rewriteTarHeaders`: the pipe as
the consumer sees it, the steps taken, what was logged, and the panics raised
(a panic in this goroutine is not recovered). -/
structure RewriteResult where
  pipe : Pipe
  trace : List Step
  logs : List Err
  panics : List Panic
  deriving DecidableEq, Repr

/-- The function `rewriteTarHeaders`: the run of its goroutine on the input
stream, whose `Close` returns `inputCloseErr`. After the loop the pipe writer
is closed; then the deferred calls run, last registered first, also when one
of them panics: `closeOrPanic` of the tar writer, then `closeOrPanic` of the
input stream. -/
def rewriteTarHeaders (fn : Header → Header) (input : TarInput) (inputCloseErr : Option Err) :
    RewriteResult :=
  let l := rewriteLoop fn input TarWriter.new { delivered := [], werr := none }
  let afterLoop : Pipe × List Step × List Panic :=
    if l.broke = true then
      match l.pipe.close with
      | (p, none) => (p, [.pipeClose], [])
      | (p, some e) => (p, [.pipeClose], [{ format := "failed to close pipeWriter: %w", err := some e }])
    else (l.pipe, [], [])
  match afterLoop with
  | (p1, steps1, panics1) =>
    match l.tw.Close p1 with
    | (_, p2, ce) =>
      { pipe := p2,
        trace := l.trace ++ steps1 ++ [.tarClose ce, .inputClose inputCloseErr],
        logs := l.logs,
        panics := panics1 ++ closeOrPanic "failed to close tarWriter: %w" ce
          ++ closeOrPanic "failed to close inputTarStream: %w" inputCloseErr }

/-- A `tar.Reader` over the chunks of a stream: the entries it yields when all
bodies have the length their headers declare, `none` otherwise. `cur` is the
entry being read. -/
def readChunks : Option (Header × Bytes) → List Chunk → Option (List (Header × Bytes))
  | none, [] => some []
  | some (h, b), [] => if b.length = h.size then some [(h, b)] else none
  | cur, .zeros _ :: rest => readChunks cur rest
  | none, .data _ :: _ => none
  | some (h, b), .data d :: rest => readChunks (some (h, b ++ d)) rest
  | none, .header h :: rest => readChunks (some (h, [])) rest
  | some (h0, b0), .header h :: rest =>
    if b0.length = h0.size then (readChunks (some (h, [])) rest).map fun es => (h0, b0) :: es
    else none

/-- The header transform that the handler passes to `rewriteTarHeaders`:
`header.Name = strings.TrimPrefix(filepath.Join(venvDir, header.Name), "/")`. -/
def renameHeader (venvDir : GoString) (h : Header) : Header :=
  { h with name := trimPrefix (Join [venvDir, h.name]) ['/'] }

/-! ## `replaceFileInTar` and `archive.ReplaceFileTarWrapper` -/

/-- The closure `modify` of `archive.ReplaceFileTarWrapper`, for a modifier
that returns the header `tmpl` and the bytes `data` without error, as the
one of `replaceFileInTar` does: an empty name is set to `name`, the size to
the length of the data, then the header and the data are written. -/
def modifyEntry (tw : TarWriter) (p : Pipe) (name : GoString) (tmpl : Header) (data : Bytes) :
    TarWriter × Pipe × Option Err :=
  let header : Header :=
    { tmpl with name := if tmpl.name = [] then name else tmpl.name, size := data.length }
  match tw.WriteHeader p header with
  | (tw1, p1, some e) => (tw1, p1, some e)
  | (tw1, p1, none) => if data = [] then (tw1, p1, none) else tw1.Write p1 data

/-- The state in which the first loop of `archive.ReplaceFileTarWrapper` is
left: `pending` tells whether the modifier is still in the map, `broke`
whether the loop was left by `break` or by `return`. -/
structure WrapEnd where
  tw : TarWriter
  pipe : Pipe
  pending : Bool
  broke : Bool
  deriving DecidableEq, Repr

/-- The first loop of the goroutine of `archive.ReplaceFileTarWrapper`
(docker/pkg/archive), for a map with the single key `key`: an entry whose
name is the key, while the key is in the map, is replaced by the modifier's
header and data and the key is deleted; every other entry is copied. -/
def wrapLoop (key : GoString) (tmpl : Header) (data : Bytes) :
    Bool → TarInput → TarWriter → Pipe → WrapEnd
  | pending, .done e, tw, p =>
    if e = .eof then { tw := tw, pipe := p, pending := pending, broke := true }
    else { tw := tw, pipe := p.closeWithError e, pending := pending, broke := false }
  | pending, .entry h content readErr rest, tw, p =>
    if pending = true ∧ h.name = key then
      match modifyEntry tw p h.name tmpl data with
      | (tw1, p1, some e) =>
        { tw := tw1, pipe := p1.closeWithError e, pending := false, broke := false }
      | (tw1, p1, none) => wrapLoop key tmpl data false rest tw1 p1
    else
      match tw.WriteHeader p h with
      | (tw1, p1, some e) =>
        { tw := tw1, pipe := p1.closeWithError e, pending := pending, broke := false }
      | (tw1, p1, none) =>
        match copyEntry tw1 p1 content readErr with
        | (tw2, p2, some e) =>
          { tw := tw2, pipe := p2.closeWithError e, pending := pending, broke := false }
        | (tw2, p2, none) => wrapLoop key tmpl data pending rest tw2 p2

/-- The function `archive.ReplaceFileTarWrapper` for a map with one key: after
the first loop, a modifier that matched no entry of the archive is applied
with the key as name (its entry comes last), then the pipe writer is closed,
and the deferred `tarWriter.Close()` runs, whose error is dropped. The result
is the pipe as the reader of the returned stream sees it. -/
def replaceFileTarWrapper (input : TarInput) (key : GoString) (tmpl : Header) (data : Bytes) :
    Pipe :=
  let l := wrapLoop key tmpl data true input TarWriter.new { delivered := [], werr := none }
  if l.broke = true then
    let unmatched : TarWriter × Pipe × Option Err :=
      if l.pending = true then modifyEntry l.tw l.pipe key tmpl data else (l.tw, l.pipe, none)
    match unmatched with
    | (tw1, p1, some e) => (tw1.Close (p1.closeWithError e)).2.1
    | (tw1, p1, none) => (tw1.Close p1.close.1).2.1
  else (l.tw.Close l.pipe).2.1

/-- The header `hdrTmpl` of `replaceFileInTar`; `now` is `time.Now()`. -/
def hdrTmpl (now : Nat) : Header :=
  { name := [], size := 0, mode := 0o600, uid := 0, gid := 0, typeflag := '0',
    modTime := now, accessTime := now, changeTime := now }

/-- The function `replaceFileInTar`; its error is always nil. -/
def replaceFileInTar (path : GoString) (data : Bytes) (input : TarInput) (now : Nat) :
    Pipe × Option Err :=
  (replaceFileTarWrapper input path (hdrTmpl now) data, none)

/-! ## The request handler -/

/-- A readable stream with its `Close` result. -/
structure Stream where
  input : TarInput
  closeErr : Option Err

/-- A message of the engine's build event stream: an auxiliary message (with
the identifier of the build result when `json.Unmarshal` succeeds, `none`
when it fails), a progress message, or a message that carries an error. -/
inductive BuildMsg
  | aux (id : Option GoString)
  | progress
  | error (e : Err)
  deriving DecidableEq, Repr

/-- The response of `docker.ImageBuild`: the messages of its body, the error
of the decoder at its end (`none` for `io.EOF`), and the result of closing
the body. -/
structure BuildResponse where
  msgs : List BuildMsg
  decodeErr : Option Err
  closeErr : Option Err

/-- The answers of the environment of one request. -/
structure Env where
  /-- Whether `os.Stat(root)` fails with an error for which `os.IsNotExist`
  holds. -/
  statNotExist : GoString → Bool
  /-- The bytes `ioutil.ReadAll(r.Body)` returns. -/
  body : Bytes
  /-- The error `ioutil.ReadAll(r.Body)` returns. -/
  bodyReadErr : Option Err
  /-- The result of `r.Body.Close()`. -/
  bodyCloseErr : Option Err
  /-- The function `build.ReadDockerignore`. -/
  readDockerignore : GoString → Except Err (List GoString)
  /-- The function `build.TrimBuildFilesFromExcludes(excludes, "Dockerfile", false)`. -/
  trimBuildFiles : List GoString → List GoString
  /-- The function `archive.TarWithOptions`, for a root and exclude patterns. -/
  tarWithOptions : GoString → List GoString → Except Err Stream
  /-- The value of `time.Now()`. -/
  now : Nat
  /-- The call `docker.ImageBuild`, for a context stream and the build
  argument `VENV`. -/
  imageBuild : Pipe → GoString → Except Err BuildResponse
  /-- The call `docker.ContainerCreate`, for an image. -/
  containerCreate : GoString → Except Err GoString
  /-- The call `docker.CopyFromContainer`, for a container and a path. -/
  copyFromContainer : GoString → GoString → Except Err Stream
  /-- The call `docker.ContainerRemove`, for a container. -/
  containerRemove : GoString → Option Err
  /-- When the goroutine of `rewriteTarHeaders` panics, the runtime ends the
  process while the handler goes on: the number of deferred calls of the
  handler that still run before the process has ended. -/
  deferredBeforeExit : Nat

/-- The function `getContext`. -/
def getContext (env : Env) (root : GoString) : Except Err Stream :=
  match env.readDockerignore root with
  | .error e => .error e
  | .ok excludes => env.tarWithOptions root (env.trimBuildFiles excludes)

/-- What the engine sees of a request, in order, and the end of the build
event stream as the handler sees it. -/
inductive Event
  /-- The call `docker.ImageBuild` with the context it was given, the build
  argument `VENV`, and whether it succeeded. -/
  | imageBuild (context : Pipe) (venv : GoString) (ok : Bool)
  /-- The call `jsonmessage.DisplayJSONMessagesStream` returned, with the
  image identifier found and the error returned. -/
  | buildStream (imageID : GoString) (err : Option Err)
  /-- The call `docker.ContainerCreate` for an image, with the identifier of
  the container when it succeeded. -/
  | containerCreate (image : GoString) (result : Option GoString)
  /-- The call `docker.CopyFromContainer`, and whether it succeeded. -/
  | copyFromContainer (container : GoString) (path : GoString) (ok : Bool)
  /-- The call `docker.ContainerRemove`. -/
  | containerRemove (container : GoString)
  deriving DecidableEq, Repr

/-- Whether an event is a call to the engine. -/
def Event.isEngineCall : Event → Bool
  | .buildStream _ _ => false
  | _ => true

/-- The outcome of one request: the events, the status and message written
with `http.Error` or `http.NotFound` (`none` when the handler wrote neither),
the run of the rewriting goroutine whose output was copied to the response,
and the panics raised in the handler. Log output is left out. -/
structure Outcome where
  events : List Event
  status : Option Nat
  message : String
  streamed : Option RewriteResult
  panics : List Panic
  deriving DecidableEq, Repr

/-- Whether the process was ended by a panic of the goroutine of
`rewriteTarHeaders` in the course of the request. -/
def Outcome.processEnded (o : Outcome) : Bool :=
  match o.streamed with
  | some run => !run.panics.isEmpty
  | none => false

/-- The deferred calls of the handler. -/
inductive Deferred
  /-- The call `closeOrPanic("could not close context tar: %w", contextTar)`. -/
  | closeContextTar
  /-- The call `closeOrPanic("could not close response body: %w", response.Body)`. -/
  | closeBuildBody (closeErr : Option Err)
  /-- The deferred function that calls `docker.ContainerRemove`. -/
  | containerRemove (id : GoString)
  /-- The call `closeOrPanic("failed to close data: %w", data)`. -/
  | closeData
  deriving DecidableEq, Repr

/-- One deferred call. Closing the read end of a pipe returns nil; an error of
`ContainerRemove` is logged. -/
def runDeferred : Deferred → Outcome → Outcome
  | .closeContextTar, o =>
    { o with panics := o.panics ++ closeOrPanic "could not close context tar: %w" none }
  | .closeBuildBody e, o =>
    { o with panics := o.panics ++ closeOrPanic "could not close response body: %w" e }
  | .containerRemove id, o => { o with events := o.events ++ [.containerRemove id] }
  | .closeData, o =>
    { o with panics := o.panics ++ closeOrPanic "failed to close data: %w" none }

/-- The deferred calls are run when the body of the handler returns or
panics, last registered first (the head of the list), each of them also after
an earlier one of the handler has panicked. -/
def runDefers : List Deferred → Outcome → Outcome
  | [], o => o
  | d :: ds, o => runDefers ds (runDeferred d o)

/-- An outcome in which the handler answered with `http.Error`. -/
def Outcome.failed (events : List Event) (code : Nat) (message : String) : Outcome :=
  { events := events, status := some code, message := message, streamed := none, panics := [] }

/-- An outcome in which the handler panicked before it wrote anything. -/
def Outcome.panicked (events : List Event) (panics : List Panic) : Outcome :=
  { events := events, status := none, message := "", streamed := none, panics := panics }

/-- The result of `jsonmessage.DisplayJSONMessagesStream` with the callback
`aux` of the handler: the image identifier, the error returned, and whether
the callback panicked. -/
structure StreamEnd where
  imageID : GoString
  err : Option Err
  panicked : Bool
  deriving DecidableEq, Repr

/-- The function `jsonmessage.DisplayJSONMessagesStream` with the callback
`aux`: an auxiliary message sets the image identifier (the callback panics
when it cannot be decoded), a message with an error ends the stream with that
error, and so does a decoder error other than `io.EOF`. -/
def displayStream : List BuildMsg → Option Err → GoString → StreamEnd
  | [], decodeErr, id =>
    { imageID := id, err := if decodeErr = some .eof then none else decodeErr, panicked := false }
  | .aux (some r) :: rest, decodeErr, _ => displayStream rest decodeErr r
  | .aux none :: _, _, id => { imageID := id, err := none, panicked := true }
  | .progress :: rest, decodeErr, id => displayStream rest decodeErr id
  | .error e :: _, _, id => { imageID := id, err := some e, panicked := false }

/-- The handler from `docker.CopyFromContainer` on: the export of the target
is passed through `rewriteTarHeaders` and copied to the response. The second
component holds the deferred calls that run when the handler returns: all that
are registered, unless the goroutine of `rewriteTarHeaders` panicked. That
panic is not recovered and ends the process, so that only the first
`env.deferredBeforeExit` of the registered calls still run. -/
def stageStream (env : Env) (venv venvDir id : GoString) (events : List Event)
    (defers : List Deferred) : Outcome × List Deferred :=
  match env.copyFromContainer id venv with
  | .error _ =>
    (Outcome.failed (events ++ [.copyFromContainer id venv false]) 500 "could copy from container",
      defers)
  | .ok data =>
    let run := rewriteTarHeaders (renameHeader venvDir) data.input data.closeErr
    let registered := Deferred.closeData :: defers
    ({ events := events ++ [.copyFromContainer id venv true], status := none, message := "",
       streamed := some run, panics := [] },
      if run.panics = [] then registered else registered.take env.deferredBeforeExit)

/-- The handler from `docker.ContainerCreate` on. -/
def stageContainer (env : Env) (venv venvDir imageID : GoString) (events : List Event)
    (defers : List Deferred) : Outcome × List Deferred :=
  match env.containerCreate imageID with
  | .error _ =>
    (Outcome.failed (events ++ [.containerCreate imageID none]) 500
      "could stream create container", defers)
  | .ok id =>
    stageStream env venv venvDir id (events ++ [.containerCreate imageID (some id)])
      (.containerRemove id :: defers)

/-- The handler from `docker.ImageBuild` on, after
`defer closeOrPanic("could not close context tar: %w", contextTar)`. -/
def stageBuild (env : Env) (venv : GoString) (contextTar : Pipe) : Outcome × List Deferred :=
  let venvDir := Dir venv
  match env.imageBuild contextTar venv with
  | .error _ =>
    (Outcome.failed [.imageBuild contextTar venv false] 500 "could not build image",
      [.closeContextTar])
  | .ok response =>
    let defers := [.closeBuildBody response.closeErr, .closeContextTar]
    let s := displayStream response.msgs response.decodeErr []
    if s.panicked = true then
      (Outcome.panicked [.imageBuild contextTar venv true]
        [{ format := "json: cannot unmarshal", err := none }], defers)
    else
      let events := [.imageBuild contextTar venv true, .buildStream s.imageID s.err]
      match s.err with
      | some _ => (Outcome.failed events 500 "could stream build result", defers)
      | none =>
        if s.imageID = [] then
          (Outcome.panicked events [{ format := "no image ID", err := none }], defers)
        else stageContainer env venv venvDir s.imageID events defers

/-- The handler of `POST /{root}/*`, for the URL parameters `root` and `*`. -/
def handler (env : Env) (rootParam wildcard : GoString) : Outcome :=
  let root := Join ["docker".toList, rootParam]
  if env.statNotExist root = true then Outcome.failed [] 404 "404 page not found"
  else
    match closeOrPanic "could not close response body: %w" env.bodyCloseErr with
    | p :: ps => Outcome.panicked [] (p :: ps)
    | [] =>
      let venv := Clean ('/' :: wildcard)
      if venv = ['.'] then Outcome.failed [] 404 "404 page not found"
      else if env.bodyReadErr.isSome = true then Outcome.failed [] 400 "could not read body"
      else
        match getContext env root with
        | .error _ => Outcome.failed [] 500 "could not get context"
        | .ok context =>
          match replaceFileInTar "/requirements.txt".toList env.body context.input env.now with
          | (_, some _) => Outcome.failed [] 500 "could not inject requirements"
          | (contextTar, none) =>
            let r := stageBuild env venv contextTar
            runDefers r.2 r.1

/-- The calls to `docker.ContainerRemove` among the deferred calls. -/
def removalsOf (ds : List Deferred) : List Event :=
  ds.filterMap fun d =>
    match d with
    | .containerRemove id => some (Event.containerRemove id)
    | _ => none

/-! ## Concrete inputs -/

/-- A header of a regular file with the given name and size. -/
def fileHeader (name : GoString) (size : Nat) : Header :=
  { name := name, size := size, mode := 0o644, uid := 0, gid := 0, typeflag := '0',
    modTime := 0, accessTime := 0, changeTime := 0 }

/-- A build context with a `Dockerfile` and a `requirements.txt`. -/
def contextEntries : List (Header × Bytes) :=
  [(fileHeader "Dockerfile".toList 2, [70, 82]),
   (fileHeader "requirements.txt".toList 3, [111, 108, 100])]

/-- An environment in which every step succeeds: the template exists, the
build yields the image `img1`, the container `c1` is created, and the export
of the target holds the file `venv/bin/python`. -/
def envOk : Env :=
  { statNotExist := fun _ => false
    body := [110, 101, 119]
    bodyReadErr := none
    bodyCloseErr := none
    readDockerignore := fun _ => .ok []
    trimBuildFiles := fun excludes => excludes
    tarWithOptions := fun _ _ =>
      .ok { input := TarInput.ofEntries contextEntries, closeErr := none }
    now := 1
    imageBuild := fun _ _ =>
      .ok { msgs := [.progress, .aux (some "img1".toList)], decodeErr := none, closeErr := none }
    containerCreate := fun _ => .ok "c1".toList
    copyFromContainer := fun _ _ =>
      .ok { input := TarInput.ofEntries [(fileHeader "venv/bin/python".toList 1, [7])],
            closeErr := none }
    containerRemove := fun _ => none
    deferredBeforeExit := 0 }

/-- An environment in which the template directory does not exist. -/
def envMissing : Env := { envOk with statNotExist := fun _ => true }

/-- An environment in which the build event stream ends without error and
without an auxiliary message, so without an image identifier. -/
def envNoImage : Env :=
  { envOk with
    imageBuild := fun _ _ => .ok { msgs := [.progress], decodeErr := none, closeErr := none } }

/-- An environment in which `docker.CopyFromContainer` fails. -/
def envCopyFails : Env := { envOk with copyFromContainer := fun _ _ => .error (.other 1) }

/-- An export that breaks off inside the body of its one entry: the header
declares two bytes, one byte is read, then the read fails. -/
def brokenExport : TarInput :=
  .entry (fileHeader "venv/bin/python".toList 2) [7] (some (.other 5)) (.done .eof)

/-- An environment in which the build and the creation of the container `c1`
succeed, the export of the target breaks off inside a body, and the process
has ended before a deferred call of the handler runs. -/
def envBrokenExport : Env :=
  { envOk with
    copyFromContainer := fun _ _ => .ok { input := brokenExport, closeErr := none }
    deferredBeforeExit := 0 }

/-- The same environment, except that the handler wins the race: its deferred
calls still run before the process has ended. -/
def envBrokenExportLate : Env := { envBrokenExport with deferredBeforeExit := 4 }

/-- The error with which a step fails, if it does: `Next` with an error other
than `io.EOF`, `WriteHeader` with an error, or the copy with an error. -/
def Step.failure : Step → Option Err
  | .nextErr e => if e = .eof then none else some e
  | .writeHeader _ (some e) => some e
  | .copy (some e) => some e
  | _ => none

/-- The entries that a `tar.Reader` over the input yields before it stops. -/
def TarInput.entries : TarInput → List (Header × Bytes)
  | .done _ => []
  | .entry h c _ rest => (h, c) :: rest.entries

/-- The input ends normally (after the last entry `Next` returns `io.EOF`, and
no body ends on a read error) and every body has the length that its header
declares once `fn` is applied. -/
def balanced (fn : Header → Header) : TarInput → Bool
  | .done e => decide (e = .eof)
  | .entry h c readErr rest =>
    decide (c.length = (fn h).size) && decide (readErr = none ∨ readErr = some .eof)
      && balanced fn rest

/-- The chunks of an archive whose entries are written one after the other,
with headers rewritten by `fn`: before each header and at the end comes the
padding of what precedes (`pad` at first), a body that is not empty comes
after its header. No end-of-archive marker is part of it. -/
def entryChunks (fn : Header → Header) : Nat → List (Header × Bytes) → List Chunk
  | pad, [] => [.zeros pad]
  | pad, (h, c) :: rest =>
    .zeros pad :: .header (fn h) ::
      ((if c = [] then [] else [.data c]) ++ entryChunks fn (blockPadding (fn h).size) rest)

/-- The steps of the loop on an input all of whose entries go through. -/
def entrySteps (fn : Header → Header) : List (Header × Bytes) → List Step
  | [] => [.nextErr .eof, .flush none]
  | (h, _) :: rest => .next h :: .writeHeader (fn h) none :: .copy none :: entrySteps fn rest

/-- The export of the target `/opt/venv`: the file `venv/bin/python`. -/
def exportEntries : List (Header × Bytes) :=
  [(fileHeader "venv".toList 0, []), (fileHeader "venv/bin/python".toList 1, [7])]

/-- A header transform that declares one byte more than the entry has. -/
def growSize (h : Header) : Header := { h with size := h.size + 1 }

/-- An archive with the one file `venv/bin/python`. -/
def oneFile : List (Header × Bytes) := [(fileHeader "venv/bin/python".toList 1, [7])]

/-- The output buffer of `filepath.Clean` (reversed) that holds the path with
the given components under the root; the last component comes first. -/
def bufR : List GoString → List Char
  | [] => ['/']
  | [c] => c.reverse ++ ['/']
  | c :: d :: st => c.reverse ++ '/' :: bufR (d :: st)

/-- The relative path with the given components, the last one first. -/
def tailR : List GoString → GoString
  | [] => []
  | [c] => c
  | c :: d :: st => tailR (d :: st) ++ '/' :: c

/-- The loop of `filepath.Clean` on a rooted path, with the fuel that `Clean`
gives it at least: the length of the path. -/
def cleanFull (path out : List Char) : List Char :=
  cleanLoop true path.length path out 1

/-- The chunks written for entries that are copied unchanged, each preceded by
the padding of what came before (`pad` at first); the padding of the last
entry is still owed. -/
def passChunks : Nat → List (Header × Bytes) → List Chunk
  | _, [] => []
  | pad, (h, c) :: rest =>
    .zeros pad :: .header h ::
      ((if c = [] then [] else [.data c]) ++ passChunks (blockPadding h.size) rest)

/-- The padding owed after the entries are copied. -/
def lastPad : Nat → List (Header × Bytes) → Nat
  | pad, [] => pad
  | _, (h, _) :: rest => lastPad (blockPadding h.size) rest

/-! # Theorems -/

/-- The deferred calls add the removals they hold to the events, in order. -/
theorem runDefers_events (ds : List Deferred) (o : Outcome) :
    (runDefers ds o).events = o.events ++ removalsOf ds := by
  induction ds generalizing o with
  | nil => simp [runDefers, removalsOf]
  | cons d ds ih =>
    cases d <;> simp [runDefers, runDeferred, ih, removalsOf]

/-- The deferred calls leave the status alone. -/
theorem runDefers_status (ds : List Deferred) (o : Outcome) :
    (runDefers ds o).status = o.status := by
  induction ds generalizing o with
  | nil => simp [runDefers]
  | cons d ds ih =>
    cases d <;> simp [runDefers, runDeferred, ih]

/-- A panic raised before the deferred calls is still there after them. -/
theorem runDefers_panics_sub (ds : List Deferred) (o : Outcome) (p : Panic) (h : p ∈ o.panics) :
    p ∈ (runDefers ds o).panics := by
  induction ds generalizing o with
  | nil => simpa [runDefers] using h
  | cons d ds ih =>
    cases d <;> simp [runDefers, runDeferred] <;> apply ih <;> simp [h]

/-- The deferred calls leave the run of the rewriting goroutine alone. -/
theorem runDefers_streamed (ds : List Deferred) (o : Outcome) :
    (runDefers ds o).streamed = o.streamed := by
  induction ds generalizing o with
  | nil => simp [runDefers]
  | cons d ds ih =>
    cases d <;> simp [runDefers, runDeferred, ih]

/-- Among the first deferred calls of a stack without removal there is none. -/
theorem removalsOf_take (ds : List Deferred) (n : Nat) (h : removalsOf ds = []) :
    removalsOf (ds.take n) = [] := by
  induction ds generalizing n with
  | nil => simp [removalsOf]
  | cons d ds ih =>
    cases n with
    | zero => simp [removalsOf]
    | succ n =>
      cases d with
      | containerRemove id => simp [removalsOf] at h
      | closeContextTar =>
        have h2 : removalsOf ds = [] := by simpa [removalsOf] using h
        simpa [removalsOf] using ih n h2
      | closeBuildBody e =>
        have h2 : removalsOf ds = [] := by simpa [removalsOf] using h
        simpa [removalsOf] using ih n h2
      | closeData =>
        have h2 : removalsOf ds = [] := by simpa [removalsOf] using h
        simpa [removalsOf] using ih n h2

/-- The removals of a stack with a removal on top. -/
theorem removalsOf_cons_remove (id : GoString) (ds : List Deferred) :
    removalsOf (.containerRemove id :: ds) = .containerRemove id :: removalsOf ds := rfl

/-- Closing the stream is no removal. -/
theorem removalsOf_cons_closeData (ds : List Deferred) :
    removalsOf (.closeData :: ds) = removalsOf ds := rfl

/-- The copy stage adds its one call. The removal that is registered runs,
unless the rewriting goroutine panicked and the process has ended before the
second deferred call. -/
theorem stageStream_events (env : Env) (venv venvDir id rid : GoString) (events : List Event)
    (rest : List Deferred) (hd : removalsOf rest = []) :
    (∃ ok, (stageStream env venv venvDir id events (.containerRemove rid :: rest)).1.events
        = events ++ [.copyFromContainer id venv ok] ∧
      removalsOf (stageStream env venv venvDir id events (.containerRemove rid :: rest)).2
        = [.containerRemove rid] ∧
      ((stageStream env venv venvDir id events (.containerRemove rid :: rest)).1.processEnded
          = false ∨ 2 ≤ env.deferredBeforeExit)) ∨
    ((stageStream env venv venvDir id events (.containerRemove rid :: rest)).1.events
        = events ++ [.copyFromContainer id venv true] ∧
      removalsOf (stageStream env venv venvDir id events (.containerRemove rid :: rest)).2 = [] ∧
      (stageStream env venv venvDir id events (.containerRemove rid :: rest)).1.processEnded
        = true ∧
      env.deferredBeforeExit ≤ 1) := by
  unfold stageStream
  split
  · left
    exact ⟨false, by simp [Outcome.failed], by rw [removalsOf_cons_remove, hd],
      Or.inl (by simp [Outcome.failed, Outcome.processEnded])⟩
  · rename_i data _
    simp only []
    by_cases hp : (rewriteTarHeaders (renameHeader venvDir) data.input data.closeErr).panics = []
    · left
      refine ⟨true, rfl, ?_, Or.inl ?_⟩
      · rw [if_pos hp, removalsOf_cons_closeData, removalsOf_cons_remove, hd]
      · simp [Outcome.processEnded, hp]
    · rw [if_neg hp]
      have hended : Outcome.processEnded
          { events := events ++ [.copyFromContainer id venv true], status := none, message := "",
            streamed := some (rewriteTarHeaders (renameHeader venvDir) data.input data.closeErr),
            panics := [] } = true := by
        simp [Outcome.processEnded, hp]
      by_cases hk : 2 ≤ env.deferredBeforeExit
      · left
        refine ⟨true, rfl, ?_, Or.inr hk⟩
        obtain ⟨k, hk2⟩ : ∃ k, env.deferredBeforeExit = k + 2 := ⟨env.deferredBeforeExit - 2, by omega⟩
        rw [hk2]
        have := removalsOf_take rest k hd
        simp only [List.take_succ_cons]
        rw [removalsOf_cons_closeData, removalsOf_cons_remove, this]
      · right
        refine ⟨by first | rfl | trivial, ?_, hended, by omega⟩
        have hk1 : env.deferredBeforeExit = 0 ∨ env.deferredBeforeExit = 1 := by omega
        rcases hk1 with h0 | h1
        · rw [h0]; simp [removalsOf]
        · rw [h1]; simp [removalsOf]

/-- The container stage: a failed creation; or a creation, a copy and the
removal; or a creation and a copy after which the process has ended before the
removal. -/
theorem stageContainer_events (env : Env) (venv venvDir img : GoString) (events : List Event)
    (defers : List Deferred) (hd : removalsOf defers = []) :
    (stageContainer env venv venvDir img events defers).1.events
        ++ removalsOf (stageContainer env venv venvDir img events defers).2
      = events ++ [.containerCreate img none] ∨
    (∃ id ok, (stageContainer env venv venvDir img events defers).1.events
        ++ removalsOf (stageContainer env venv venvDir img events defers).2 =
      events ++ [.containerCreate img (some id), .copyFromContainer id venv ok,
        .containerRemove id] ∧
      ((stageContainer env venv venvDir img events defers).1.processEnded = false ∨
        2 ≤ env.deferredBeforeExit)) ∨
    (∃ id, (stageContainer env venv venvDir img events defers).1.events
        ++ removalsOf (stageContainer env venv venvDir img events defers).2 =
      events ++ [.containerCreate img (some id), .copyFromContainer id venv true] ∧
      (stageContainer env venv venvDir img events defers).1.processEnded = true ∧
      env.deferredBeforeExit ≤ 1) := by
  unfold stageContainer
  split
  · left; simp [Outcome.failed, hd]
  · rename_i id _
    right
    rcases stageStream_events env venv venvDir id id
      (events ++ [.containerCreate img (some id)]) defers hd with
      ⟨ok, h1, h2, h3⟩ | ⟨h1, h2, h3, h4⟩
    · left
      refine ⟨id, ok, ?_, h3⟩
      rw [h1, h2]
      simp
    · right
      refine ⟨id, ?_, h3, h4⟩
      rw [h1, h2]
      simp

/-- The shapes of the list of events of a request. -/
theorem handler_events_shape (env : Env) (rootParam wildcard : GoString) :
    (handler env rootParam wildcard).events = [] ∨
    (∃ ctx venv ok, (handler env rootParam wildcard).events = [.imageBuild ctx venv ok]) ∨
    (∃ ctx venv img err, (handler env rootParam wildcard).events
       = [.imageBuild ctx venv true, .buildStream img err]) ∨
    (∃ ctx venv img, (handler env rootParam wildcard).events
       = [.imageBuild ctx venv true, .buildStream img none, .containerCreate img none]) ∨
    (∃ ctx venv img id ok, (handler env rootParam wildcard).events
      = [.imageBuild ctx venv true, .buildStream img none,
        .containerCreate img (some id), .copyFromContainer id venv ok, .containerRemove id] ∧
      ((handler env rootParam wildcard).processEnded = false ∨ 2 ≤ env.deferredBeforeExit)) ∨
    (∃ ctx venv img id, (handler env rootParam wildcard).events
      = [.imageBuild ctx venv true, .buildStream img none,
        .containerCreate img (some id), .copyFromContainer id venv true] ∧
      (handler env rootParam wildcard).processEnded = true ∧ env.deferredBeforeExit ≤ 1) := by
  unfold handler
  simp only []
  split
  · left; rfl
  · split
    · left; rfl
    · split
      · left; rfl
      · split
        · left; rfl
        · split
          · left; rfl
          · split
            · left; rfl
            · rename_i contextTar _
              right
              simp only [Outcome.processEnded, runDefers_streamed]
              rw [runDefers_events]
              unfold stageBuild
              simp only []
              split
              · left
                exact ⟨contextTar, Clean ('/' :: wildcard), false,
                  by simp [Outcome.failed, removalsOf]⟩
              · rename_i response _
                split
                · left
                  exact ⟨contextTar, Clean ('/' :: wildcard), true,
                    by simp [Outcome.panicked, removalsOf]⟩
                · split
                  · right; left
                    exact ⟨contextTar, Clean ('/' :: wildcard),
                      (displayStream response.msgs response.decodeErr []).imageID,
                      (displayStream response.msgs response.decodeErr []).err,
                      by simp [Outcome.failed, removalsOf]⟩
                  · rename_i herr
                    split
                    · right; left
                      exact ⟨contextTar, Clean ('/' :: wildcard),
                        (displayStream response.msgs response.decodeErr []).imageID,
                        (displayStream response.msgs response.decodeErr []).err,
                        by simp [Outcome.panicked, removalsOf]⟩
                    · right; right
                      have := stageContainer_events env (Clean ('/' :: wildcard))
                        (Dir (Clean ('/' :: wildcard)))
                        (displayStream response.msgs response.decodeErr []).imageID
                        [.imageBuild contextTar (Clean ('/' :: wildcard)) true,
                          .buildStream (displayStream response.msgs response.decodeErr []).imageID
                            (displayStream response.msgs response.decodeErr []).err]
                        [.closeBuildBody response.closeErr, .closeContextTar]
                        (by simp [removalsOf])
                      simp only [Outcome.processEnded] at this
                      rw [herr] at this ⊢
                      rcases this with h | ⟨id, ok, h, hp⟩ | ⟨id, h, hp, hk⟩
                      · left; exact ⟨_, _, _, by simpa using h⟩
                      · right; left; exact ⟨_, _, _, id, ok, by simpa using h, hp⟩
                      · right; right; exact ⟨_, _, _, id, by simpa using h, hp, hk⟩

/-- In every run of the handler in which the process is not ended by a panic
of the rewriting goroutine before the second deferred call: when
`docker.ContainerCreate` succeeds with a container `id`, the events hold
exactly one `ContainerRemove` call, and it is for `id`, whether
`CopyFromContainer` succeeded or failed; and without a successful
`ContainerCreate` there is no `ContainerRemove` call. -/
theorem container_removed_unless_process_ends (env : Env) (rootParam wildcard : GoString)
    (hp : (handler env rootParam wildcard).processEnded = false ∨ 2 ≤ env.deferredBeforeExit) :
    (∀ image id, Event.containerCreate image (some id) ∈ (handler env rootParam wildcard).events →
      (handler env rootParam wildcard).events.count (.containerRemove id) = 1 ∧
      ∀ other, Event.containerRemove other ∈ (handler env rootParam wildcard).events →
        other = id) ∧
    ((∀ image id,
        Event.containerCreate image (some id) ∉ (handler env rootParam wildcard).events) →
      ∀ id, Event.containerRemove id ∉ (handler env rootParam wildcard).events) := by
  rcases handler_events_shape env rootParam wildcard with h | ⟨c, v, ok, h⟩ | ⟨c, v, i, e, h⟩ |
    ⟨c, v, i, h⟩ | ⟨c, v, i, id, ok, h, -⟩ | ⟨c, v, i, id, h, hended, hk⟩
  · rw [h]; simp
  · rw [h]; simp
  · rw [h]; simp
  · rw [h]; simp
  · rw [h]
    constructor
    · intro image id2 hmem
      simp at hmem
      obtain ⟨-, rfl⟩ := hmem
      simp [List.count_cons]
    · intro hno
      exact absurd (by simp) (hno i id)
  · exfalso
    rcases hp with hp | hp
    · rw [hp] at hended; cases hended
    · omega

/-- C2, as the code behaves: in every run of the handler in which
`docker.ContainerCreate` succeeds, the rewriting goroutine panics, and the
process has ended before the second deferred call of the handler (the first
closes the stream, the second is the removal), the events hold no
`ContainerRemove` call at all: the container is left behind. -/
theorem container_left_when_process_ends (env : Env) (rootParam wildcard : GoString)
    (image id : GoString)
    (hc : Event.containerCreate image (some id) ∈ (handler env rootParam wildcard).events)
    (hp : (handler env rootParam wildcard).processEnded = true)
    (hk : env.deferredBeforeExit ≤ 1) :
    (handler env rootParam wildcard).events.count (.containerRemove id) = 0 ∧
    ∀ other, Event.containerRemove other ∉ (handler env rootParam wildcard).events := by
  rcases handler_events_shape env rootParam wildcard with h | ⟨c, v, ok, h⟩ | ⟨c, v, i, e, h⟩ |
    ⟨c, v, i, h⟩ | ⟨c, v, i, id2, ok, h, hq⟩ | ⟨c, v, i, id2, h, -, -⟩
  · rw [h] at hc; simp at hc
  · rw [h] at hc; simp at hc
  · rw [h] at hc; simp at hc
  · rw [h] at hc; simp at hc
  · exfalso
    rcases hq with hq | hq
    · rw [hq] at hp; cases hp
    · omega
  · rw [h]
    simp [List.count_cons]

/-- C7: when `os.Stat` reports that the template directory under `docker` does
not exist, the handler answers 404 and makes no engine call, whatever the
target path and the request body are. -/
theorem missing_template_not_found (env : Env) (rootParam wildcard : GoString)
    (h : env.statNotExist (Join ["docker".toList, rootParam]) = true) :
    (handler env rootParam wildcard).status = some 404 ∧
    (handler env rootParam wildcard).events = [] := by
  unfold handler
  simp only []
  rw [if_pos h]
  exact ⟨rfl, rfl⟩

/-- C7, at a concrete input: the template `missing` does not exist. -/
theorem missing_template_not_found_witness :
    envMissing.statNotExist (Join ["docker".toList, "missing".toList]) = true ∧
    (handler envMissing "missing".toList "opt/venv".toList).status = some 404 ∧
    (handler envMissing "missing".toList "opt/venv".toList).events = [] :=
  ⟨rfl, missing_template_not_found envMissing "missing".toList "opt/venv".toList rfl⟩

/-- The copy fails after the container `c1` was created: no goroutine is
started, and `c1` is removed once. -/
theorem container_removed_after_failed_copy :
    (handler envCopyFails "py39".toList "opt/venv".toList).processEnded = false ∧
    Event.containerCreate "img1".toList (some "c1".toList)
      ∈ (handler envCopyFails "py39".toList "opt/venv".toList).events ∧
    (handler envCopyFails "py39".toList "opt/venv".toList).events.count
      (.containerRemove "c1".toList) = 1 :=
  ⟨by decide, by decide,
    ((container_removed_unless_process_ends envCopyFails "py39".toList "opt/venv".toList
      (Or.inl (by decide))).1 "img1".toList "c1".toList (by decide)).1⟩

/-- C2 as the code behaves, at the failing input: the container `c1` is
created, the export breaks off inside a body, the rewriting goroutine panics
on closing the tar writer (`missed writing 1 bytes`), the process has ended
before a deferred call of the handler runs, and `c1` is never removed. -/
theorem container_left_when_process_ends_witness :
    Event.containerCreate "img1".toList (some "c1".toList)
      ∈ (handler envBrokenExport "py39".toList "opt/venv".toList).events ∧
    (handler envBrokenExport "py39".toList "opt/venv".toList).processEnded = true ∧
    envBrokenExport.deferredBeforeExit ≤ 1 ∧
    (handler envBrokenExport "py39".toList "opt/venv".toList).events.count
      (.containerRemove "c1".toList) = 0 :=
  ⟨by decide, by decide, by decide,
    (container_left_when_process_ends envBrokenExport "py39".toList "opt/venv".toList
      "img1".toList "c1".toList (by decide) (by decide) (by decide)).1⟩

/-- The panic that ends the process at the failing input: the deferred close
of the tar writer fails with `missed writing 1 bytes`. When the handler wins
the race, `c1` is still removed. -/
theorem broken_export_panics :
    ((handler envBrokenExport "py39".toList "opt/venv".toList).streamed.map fun run =>
        run.panics)
      = some [{ format := "failed to close tarWriter: %w", err := some (.missedWriting 1) }] ∧
    (handler envBrokenExportLate "py39".toList "opt/venv".toList).events.count
      (.containerRemove "c1".toList) = 1 := by
  decide

/-- The request `POST /py39/`: for the template `py39` and the empty wildcard
segment the target normalises to `/`, and the handler does not reject the
request: it writes no error status and calls `ImageBuild` with `VENV=/`,
`ContainerCreate`, `CopyFromContainer` for the path `/`, and `ContainerRemove`. -/
theorem root_target_not_rejected :
    Clean ('/' :: "".toList) = ['/'] ∧
    (handler envOk "py39".toList "".toList).status = none ∧
    (handler envOk "py39".toList "".toList).events.map
        (fun e => match e with
          | .imageBuild _ venv ok => (1, venv, ok)
          | .buildStream _ _ => (0, [], true)
          | .containerCreate _ r => (2, [], r.isSome)
          | .copyFromContainer _ path ok => (3, path, ok)
          | .containerRemove _ => (4, [], true))
      = [(1, ['/'], true), (0, [], true), (2, [], true), (3, ['/'], true), (4, [], true)] := by
  decide

/-- C6, counterexample: the build event stream ends without error and without
an image identifier, and the handler writes no 5xx response: it writes no
status at all. -/
theorem no_image_id_no_response :
    Event.buildStream [] none ∈ (handler envNoImage "py39".toList "opt/venv".toList).events ∧
    ¬ ∃ code, (handler envNoImage "py39".toList "opt/venv".toList).status = some code ∧
      500 ≤ code ∧ code < 600 := by
  refine ⟨by decide, ?_⟩
  have h : (handler envNoImage "py39".toList "opt/venv".toList).status = none := by decide
  rw [h]
  simp

/-- C6, as amended: in every run in which the build event stream ends without
error and without an image identifier, the handler panics with `no image ID`,
writes no status and no message, and makes no `ContainerCreate` call (and so
no `CopyFromContainer` or `ContainerRemove` call either). -/
theorem no_image_id_panics (env : Env) (rootParam wildcard : GoString)
    (h : Event.buildStream [] none ∈ (handler env rootParam wildcard).events) :
    { format := "no image ID", err := none } ∈ (handler env rootParam wildcard).panics ∧
    (handler env rootParam wildcard).status = none ∧
    (∀ image result,
      Event.containerCreate image result ∉ (handler env rootParam wildcard).events) ∧
    (∃ context venv, (handler env rootParam wildcard).events
      = [.imageBuild context venv true, .buildStream [] none]) := by
  revert h
  unfold handler
  simp only []
  split
  · intro h; simp [Outcome.failed] at h
  · split
    · intro h; simp [Outcome.panicked] at h
    · split
      · intro h; simp [Outcome.failed] at h
      · split
        · intro h; simp [Outcome.failed] at h
        · split
          · intro h; simp [Outcome.failed] at h
          · split
            · intro h; simp [Outcome.failed] at h
            · rename_i contextTar _
              unfold stageBuild
              simp only []
              split
              · intro h; simp [runDefers_events, Outcome.failed, removalsOf] at h
              · rename_i response _
                split
                · intro h; simp [runDefers_events, Outcome.panicked, removalsOf] at h
                · split
                  · rename_i e herr
                    intro h
                    simp [runDefers_events, Outcome.failed, removalsOf, herr] at h
                  · rename_i herr
                    split
                    · rename_i hid
                      intro _
                      refine ⟨?_, ?_, ?_, ?_⟩
                      · apply runDefers_panics_sub
                        simp [Outcome.panicked]
                      · simp [runDefers_status, Outcome.panicked]
                      · simp [runDefers_events, Outcome.panicked, removalsOf]
                      · exact ⟨contextTar, Clean ('/' :: wildcard),
                          by simp [runDefers_events, Outcome.panicked, removalsOf, hid, herr]⟩
                    · rename_i hid
                      intro h
                      exfalso
                      rw [runDefers_events] at h
                      rcases stageContainer_events env (Clean ('/' :: wildcard))
                        (Dir (Clean ('/' :: wildcard)))
                        (displayStream response.msgs response.decodeErr []).imageID
                        [.imageBuild contextTar (Clean ('/' :: wildcard)) true,
                          .buildStream (displayStream response.msgs response.decodeErr []).imageID
                            (displayStream response.msgs response.decodeErr []).err]
                        [.closeBuildBody response.closeErr, .closeContextTar]
                        (by simp [removalsOf]) with h2 | ⟨id, ok, h2, -⟩ | ⟨id, h2, -, -⟩
                      · rw [h2] at h
                        simp at h
                        exact hid h.1
                      · rw [h2] at h
                        simp at h
                        exact hid h.1
                      · rw [h2] at h
                        simp at h
                        exact hid h.1

/-- C6 as amended, at a concrete input. -/
theorem no_image_id_panics_witness :
    Event.buildStream [] none ∈ (handler envNoImage "py39".toList "opt/venv".toList).events ∧
    (handler envNoImage "py39".toList "opt/venv".toList).status = none :=
  ⟨by decide,
    (no_image_id_panics envNoImage "py39".toList "opt/venv".toList (by decide)).2.1⟩

/-- A write to an open pipe hands the chunk over. -/
theorem Pipe.write_open (p : Pipe) (c : Chunk) (h : p.werr = none) :
    p.write c = ({ delivered := p.delivered ++ [c], werr := none }, none) := by
  cases p with
  | mk d w => 
    simp only at h
    subst h
    rfl

/-- A write leaves the stored error of the pipe alone. -/
theorem Pipe.write_werr (p : Pipe) (c : Chunk) : (p.write c).1.werr = p.werr := by
  unfold Pipe.write
  split <;> simp

/-- A write to a closed pipe fails with `io.ErrClosedPipe`. -/
theorem Pipe.write_closed (p : Pipe) (c : Chunk) (e : Err) (h : p.werr = some e) :
    p.write c = (p, some .closedPipe) := by
  unfold Pipe.write
  rw [h]

/-- Flushing when the body is complete writes the padding. -/
theorem Flush_ready (pad : Nat) (d : List Chunk) :
    TarWriter.Flush { err := none, remaining := 0, pad := pad } { delivered := d, werr := none }
      = ({ err := none, remaining := 0, pad := 0 },
         { delivered := d ++ [.zeros pad], werr := none }, none) := by
  simp [TarWriter.Flush, Pipe.write]

/-- Flushing when bytes of the body are owed fails and changes nothing. -/
theorem Flush_owing (n pad : Nat) (p : Pipe) :
    TarWriter.Flush { err := none, remaining := n + 1, pad := pad } p
      = ({ err := none, remaining := n + 1, pad := pad }, p, some (.missedWriting (n + 1))) := by
  simp [TarWriter.Flush]

/-- Writing a header when the previous body is complete. -/
theorem WriteHeader_ready (pad : Nat) (d : List Chunk) (h : Header) :
    TarWriter.WriteHeader { err := none, remaining := 0, pad := pad }
        { delivered := d, werr := none } h
      = ({ err := none, remaining := h.size, pad := blockPadding h.size },
         { delivered := d ++ [.zeros pad, .header h], werr := none }, none) := by
  simp [TarWriter.WriteHeader, Flush_ready, Pipe.write]

/-- Writing a header when bytes of the previous body are owed fails. -/
theorem WriteHeader_owing (n pad : Nat) (p : Pipe) (h : Header) :
    TarWriter.WriteHeader { err := none, remaining := n + 1, pad := pad } p h
      = ({ err := none, remaining := n + 1, pad := pad }, p, some (.missedWriting (n + 1))) := by
  simp [TarWriter.WriteHeader, Flush_owing]

/-- Copying a body of the declared length that ends on `io.EOF`. -/
theorem copyEntry_exact (pad : Nat) (d : List Chunk) (c : Bytes) (readErr : Option Err)
    (hr : readErr = none ∨ readErr = some .eof) :
    copyEntry { err := none, remaining := c.length, pad := pad } { delivered := d, werr := none }
        c readErr
      = ({ err := none, remaining := 0, pad := pad },
         { delivered := d ++ (if c = [] then [] else [.data c]), werr := none }, none) := by
  unfold copyEntry
  by_cases hc : c = []
  · subst hc
    rcases hr with rfl | rfl <;> simp
  · rcases hr with rfl | rfl <;> simp [hc, TarWriter.Write, Pipe.write]

/-- The loop on a balanced input: every entry goes through, and the loop is
left by `break` after a successful flush. -/
theorem rewriteLoop_balanced (fn : Header → Header) (input : TarInput) (pad : Nat)
    (d : List Chunk) (hb : balanced fn input = true) :
    rewriteLoop fn input { err := none, remaining := 0, pad := pad }
        { delivered := d, werr := none }
      = { tw := { err := none, remaining := 0, pad := 0 },
          pipe := { delivered := d ++ entryChunks fn pad input.entries, werr := none },
          trace := entrySteps fn input.entries, logs := [], broke := true } := by
  induction input generalizing pad d with
  | done e =>
    simp only [balanced, decide_eq_true_eq] at hb
    subst hb
    simp [rewriteLoop, Flush_ready, TarInput.entries, entryChunks, entrySteps]
  | entry h c readErr rest ih =>
    simp only [balanced, Bool.and_eq_true, decide_eq_true_eq] at hb
    obtain ⟨⟨hc, hr⟩, hrest⟩ := hb
    unfold rewriteLoop
    rw [WriteHeader_ready, ← hc]
    simp only []
    rw [copyEntry_exact _ _ _ _ hr]
    simp only []
    rw [ih _ _ hrest]
    simp [TarInput.entries, entryChunks, entrySteps, hc]

/-- Reading back the chunks of entries whose bodies have the declared length
yields the entries, after the entry that was being read. -/
theorem readChunks_entryChunks (fn : Header → Header) (A : List (Header × Bytes)) (pad : Nat)
    (cur : Option (Header × Bytes))
    (hcur : ∀ e ∈ cur, e.2.length = e.1.size)
    (hA : ∀ e ∈ A, e.2.length = (fn e.1).size) :
    readChunks cur (entryChunks fn pad A)
      = some (cur.toList ++ A.map fun e => (fn e.1, e.2)) := by
  induction A generalizing pad cur with
  | nil =>
    cases cur with
    | none => simp [entryChunks, readChunks]
    | some e =>
      obtain ⟨h0, b0⟩ := e
      have := hcur (h0, b0) rfl
      simp [entryChunks, readChunks, this]
  | cons a A ih =>
    obtain ⟨h, c⟩ := a
    have hc : c.length = (fn h).size := hA (h, c) (by simp)
    have hA2 : ∀ e ∈ A, e.2.length = (fn e.1).size := fun e he => hA e (by simp [he])
    have key : readChunks (some (fn h, []))
        ((if c = [] then [] else [Chunk.data c]) ++ entryChunks fn (blockPadding (fn h).size) A)
        = some ((fn h, c) :: A.map fun e => (fn e.1, e.2)) := by
      by_cases hc0 : c = []
      · subst hc0
        simp only [if_true, List.nil_append]
        rw [ih _ (some (fn h, [])) (by intro e he; cases he; simpa using hc) hA2]
        simp
      · simp only [hc0, if_false, List.singleton_append, readChunks, List.nil_append]
        rw [ih _ (some (fn h, c)) (by intro e he; cases he; simpa using hc) hA2]
        simp
    cases cur with
    | none =>
      simp only [entryChunks, readChunks]
      rw [key]; simp
    | some e =>
      obtain ⟨h0, b0⟩ := e
      have := hcur (h0, b0) rfl
      simp only [entryChunks, readChunks]
      simp only at this
      rw [if_pos this, key]; simp

/-- Flushing leaves the stored error of the pipe alone. -/
theorem Flush_werr (tw : TarWriter) (p : Pipe) : (tw.Flush p).2.1.werr = p.werr := by
  unfold TarWriter.Flush
  split
  · rfl
  · split
    · rfl
    · have h := Pipe.write_werr p (.zeros tw.pad)
      rcases hw : p.write (.zeros tw.pad) with ⟨p1, e⟩
      rw [hw] at h
      cases e <;> simpa using h

/-- Closing the tar writer leaves the stored error of the pipe alone. -/
theorem Close_werr (tw : TarWriter) (p : Pipe) : (tw.Close p).2.1.werr = p.werr := by
  unfold TarWriter.Close
  split
  · rfl
  · split
    · rfl
    · have hF := Flush_werr tw p
      rcases hfl : tw.Flush p with ⟨tw1, p1, fe⟩
      rw [hfl] at hF
      simp only at hF
      cases fe with
      | some e => simpa using hF
      | none =>
        simp only
        have h1 := Pipe.write_werr p1 (.zeros 512)
        rcases hw1 : p1.write (.zeros 512) with ⟨p2, e1⟩
        rw [hw1] at h1
        simp only at h1
        cases e1 with
        | some e => simp only; rw [h1, hF]
        | none =>
          simp only
          have h2 := Pipe.write_werr p2 (.zeros 512)
          rcases hw2 : p2.write (.zeros 512) with ⟨p3, e2⟩
          rw [hw2] at h2
          simp only at h2 ⊢
          rw [h2, h1, hF]

/-- The run on a balanced input: the entries go through, the pipe writer is
closed, then the deferred `Close` of the tar writer fails with
`io.ErrClosedPipe`, which `closeOrPanic` drops, and the input is closed. -/
theorem rewriteTarHeaders_balanced (fn : Header → Header) (input : TarInput)
    (closeErr : Option Err) (hb : balanced fn input = true) :
    rewriteTarHeaders fn input closeErr
      = { pipe := { delivered := entryChunks fn 0 input.entries, werr := some .eof },
          trace := entrySteps fn input.entries
            ++ [.pipeClose, .tarClose (some .closedPipe), .inputClose closeErr],
          logs := [],
          panics := closeOrPanic "failed to close inputTarStream: %w" closeErr } := by
  unfold rewriteTarHeaders TarWriter.new
  rw [rewriteLoop_balanced fn input 0 [] hb]
  simp [Pipe.close, Pipe.closeWithError, TarWriter.Close, TarWriter.Flush, Pipe.write,
    closeOrPanic]

/-- The reader over the input of a list of entries yields these entries. -/
theorem ofEntries_entries (A : List (Header × Bytes)) : (TarInput.ofEntries A).entries = A := by
  induction A with
  | nil => rfl
  | cons a A ih =>
    obtain ⟨h, c⟩ := a
    simp [TarInput.ofEntries, TarInput.entries, ih]

/-- The input of a list of entries is balanced when every body has the length
that the rewritten header declares. -/
theorem ofEntries_balanced (fn : Header → Header) (A : List (Header × Bytes))
    (hA : ∀ e ∈ A, e.2.length = (fn e.1).size) : balanced fn (TarInput.ofEntries A) = true := by
  induction A with
  | nil => simp [TarInput.ofEntries, balanced]
  | cons a A ih =>
    obtain ⟨h, c⟩ := a
    have h1 : c.length = (fn h).size := hA (h, c) (by simp)
    have h2 := ih fun e he => hA e (by simp [he])
    simp [TarInput.ofEntries, balanced, h1, h2]

/-- The padding of a block is shorter than a block. -/
theorem blockPadding_lt (n : Nat) : blockPadding n < 512 := by
  unfold blockPadding
  exact Nat.mod_lt _ (by decide)

/-- The chunks of entries hold no block of the end-of-archive marker. -/
theorem zeros_block_not_mem_entryChunks (fn : Header → Header) (A : List (Header × Bytes))
    (pad : Nat) (hpad : pad < 512) : Chunk.zeros 512 ∉ entryChunks fn pad A := by
  induction A generalizing pad with
  | nil =>
    simp only [entryChunks, List.mem_singleton, Chunk.zeros.injEq]
    omega
  | cons a A ih =>
    obtain ⟨h, c⟩ := a
    have := ih _ (blockPadding_lt (fn h).size)
    by_cases hc : c = [] <;> simp [entryChunks, hc, this] <;> omega

/-- C1: for every well-formed input archive `A` and every header transform
`fn` that leaves the declared size unchanged, the stream returned by
`rewriteTarHeaders` ends cleanly (the reader sees `io.EOF`), and reading it to
its end yields as many entries as `A`, in the same order, the i-th with the
content of the i-th entry of `A` and with `fn` applied to its header. -/
theorem rewrite_preserves_entries (fn : Header → Header) (A : List (Header × Bytes))
    (closeErr : Option Err) (hsize : ∀ h, (fn h).size = h.size)
    (hwf : ∀ e ∈ A, e.2.length = e.1.size) :
    (rewriteTarHeaders fn (TarInput.ofEntries A) closeErr).pipe.werr = some .eof ∧
    readChunks none (rewriteTarHeaders fn (TarInput.ofEntries A) closeErr).pipe.delivered
      = some (A.map fun e => (fn e.1, e.2)) := by
  have hA : ∀ e ∈ A, e.2.length = (fn e.1).size := fun e he => by rw [hsize]; exact hwf e he
  rw [rewriteTarHeaders_balanced fn _ closeErr (ofEntries_balanced fn A hA), ofEntries_entries]
  refine ⟨rfl, ?_⟩
  simp only []
  rw [readChunks_entryChunks fn A 0 none (by simp) hA]
  simp

/-- C1, at a concrete input: the export of `/opt/venv` through the transform of
the handler. -/
theorem rewrite_preserves_entries_witness :
    (∀ h, (renameHeader "/opt".toList h).size = h.size) ∧
    (∀ e ∈ exportEntries, e.2.length = e.1.size) ∧
    (rewriteTarHeaders (renameHeader "/opt".toList) (TarInput.ofEntries exportEntries)
      none).pipe.werr = some .eof ∧
    readChunks none (rewriteTarHeaders (renameHeader "/opt".toList)
        (TarInput.ofEntries exportEntries) none).pipe.delivered
      = some (exportEntries.map fun e => (renameHeader "/opt".toList e.1, e.2)) :=
  ⟨fun _ => rfl, by decide,
    rewrite_preserves_entries (renameHeader "/opt".toList) exportEntries none (fun _ => rfl)
      (by decide)⟩

/-- C10, counterexample: the input ends normally, but the transform declares
one byte more than the last entry has; the deferred `Close` of the tar writer
then fails with `missed writing 1 bytes`, not with `io.ErrClosedPipe`, and
`closeOrPanic` panics. -/
theorem grown_size_close_panics :
    Step.nextErr .eof
      ∈ (rewriteTarHeaders growSize (TarInput.ofEntries oneFile) none).trace ∧
    Step.tarClose (some (.missedWriting 1))
      ∈ (rewriteTarHeaders growSize (TarInput.ofEntries oneFile) none).trace ∧
    Step.tarClose (some .closedPipe)
      ∉ (rewriteTarHeaders growSize (TarInput.ofEntries oneFile) none).trace ∧
    (rewriteTarHeaders growSize (TarInput.ofEntries oneFile) none).panics
      = [{ format := "failed to close tarWriter: %w", err := some (.missedWriting 1) }] := by
  decide

/-- With an open pipe and no sticky error, `WriteHeader` fails on owed bytes
and changes nothing, or succeeds and leaves the pipe open. -/
theorem WriteHeader_cases (tw : TarWriter) (p : Pipe) (h : Header) (htw : tw.err = none)
    (hp : p.werr = none) :
    (∃ n, tw.WriteHeader p h = (tw, p, some (.missedWriting n))) ∨
    (∃ tw1 p1, tw.WriteHeader p h = (tw1, p1, none) ∧ tw1.err = none ∧ p1.werr = none) := by
  obtain ⟨err, remaining, pad⟩ := tw
  obtain ⟨d, w⟩ := p
  simp only at htw hp
  subst htw hp
  cases remaining with
  | zero => right; exact ⟨_, _, WriteHeader_ready pad d h, rfl, rfl⟩
  | succ n => left; exact ⟨n + 1, WriteHeader_owing n pad _ h⟩

/-- With an open pipe and no sticky error, the copy of a body leaves the pipe
open, does not fail with `io.EOF`, and leaves no sticky error when it
succeeds. -/
theorem copyEntry_props (tw : TarWriter) (p : Pipe) (c : Bytes) (readErr : Option Err)
    (htw : tw.err = none) (hp : p.werr = none) :
    (copyEntry tw p c readErr).2.1.werr = none ∧
    ((copyEntry tw p c readErr).2.2 = none → (copyEntry tw p c readErr).1.err = none) ∧
    (copyEntry tw p c readErr).2.2 ≠ some .eof := by
  obtain ⟨err, remaining, pad⟩ := tw
  obtain ⟨d, w⟩ := p
  simp only at htw hp
  subst htw hp
  unfold copyEntry TarWriter.Write Pipe.write
  by_cases hc : c = []
  · cases readErr with
    | none => simp [hc]
    | some e => by_cases he : e = .eof <;> simp [hc, he]
  · by_cases h1 : List.take remaining c = [] <;> by_cases h2 : remaining < c.length <;>
      cases readErr with
      | none => simp [hc, h1, h2]
      | some e => by_cases he : e = .eof <;> simp [hc, h1, h2, he]

/-- The loop either is left by `break`, without a failed step and with the
pipe open, or is left by `return` right after the one failed step and the
call `CloseWithError` with its error, which is not `io.EOF` and is what the
pipe then holds. -/
theorem rewriteLoop_spec (fn : Header → Header) (input : TarInput) (tw : TarWriter) (p : Pipe)
    (htw : tw.err = none) (hp : p.werr = none) :
    ((rewriteLoop fn input tw p).broke = true ∧ (rewriteLoop fn input tw p).pipe.werr = none ∧
      ∀ s ∈ (rewriteLoop fn input tw p).trace, s.failure = none) ∨
    ((rewriteLoop fn input tw p).broke = false ∧
      ∃ pre s e, (rewriteLoop fn input tw p).trace = pre ++ [s, .closeWithError e] ∧
        s.failure = some e ∧ e ≠ .eof ∧ (∀ t ∈ pre, t.failure = none) ∧
        (rewriteLoop fn input tw p).pipe.werr = some e) := by
  induction input generalizing tw p with
  | done e =>
    unfold rewriteLoop
    by_cases he : e = .eof
    · left
      subst he
      simp only [if_true]
      have hF := Flush_werr tw p
      rcases hfl : tw.Flush p with ⟨tw1, p1, fe⟩
      rw [hfl] at hF
      simp only at hF ⊢
      refine ⟨trivial, by rw [hF, hp], ?_⟩
      intro s hs
      simp at hs
      rcases hs with rfl | rfl <;> simp [Step.failure]
    · right
      simp only [he, if_false]
      refine ⟨trivial, [], .nextErr e, e, rfl, by simp [Step.failure, he], he, by simp, ?_⟩
      simp [Pipe.closeWithError, hp]
  | entry h c readErr rest ih =>
    unfold rewriteLoop
    rcases WriteHeader_cases tw p (fn h) htw hp with ⟨n, hw⟩ | ⟨tw1, p1, hw, htw1, hp1⟩
    · right
      rw [hw]
      simp only
      refine ⟨trivial, [.next h], .writeHeader (fn h) (some (.missedWriting n)), .missedWriting n,
        rfl, rfl, by simp, by simp [Step.failure], ?_⟩
      simp [Pipe.closeWithError, hp]
    · rw [hw]
      simp only
      obtain ⟨hq1, hq2, hq3⟩ := copyEntry_props tw1 p1 c readErr htw1 hp1
      rcases hcp : copyEntry tw1 p1 c readErr with ⟨tw2, p2, eo⟩
      rw [hcp] at hq1 hq2 hq3
      simp only at hq1 hq2 hq3
      have hp2 : p2.werr = none := hq1
      cases eo with
      | some e =>
        right
        have he : e ≠ .eof := fun h => hq3 (by rw [h])
        simp only
        refine ⟨trivial, [.next h, .writeHeader (fn h) none], .copy (some e), e, rfl, rfl, he,
          by simp [Step.failure], ?_⟩
        simp [Pipe.closeWithError, hp2]
      | none =>
        have htw2 : tw2.err = none := hq2 rfl
        simp only
        rcases ih tw2 p2 htw2 hp2 with ⟨hb, hw2, hall⟩ | ⟨hb, pre, s, e, htr, hs, he, hpre, hwe⟩
        · left
          refine ⟨hb, hw2, ?_⟩
          intro s hs
          simp at hs
          rcases hs with rfl | rfl | rfl | hs
          · rfl
          · rfl
          · rfl
          · exact hall s hs
        · right
          refine ⟨hb, .next h :: .writeHeader (fn h) none :: .copy none :: pre, s, e, ?_, hs, he,
            ?_, hwe⟩
          · simp [htr]
          · intro t ht
            simp at ht
            rcases ht with rfl | rfl | rfl | ht
            · rfl
            · rfl
            · rfl
            · exact hpre t ht

/-- The run when the loop is left by `return`: only the deferred calls
follow, and the pipe keeps its stored error. -/
theorem rewriteTarHeaders_returned (fn : Header → Header) (input : TarInput)
    (closeErr : Option Err)
    (hb : (rewriteLoop fn input TarWriter.new { delivered := [], werr := none }).broke = false) :
    (rewriteTarHeaders fn input closeErr).pipe.werr
      = (rewriteLoop fn input TarWriter.new { delivered := [], werr := none }).pipe.werr ∧
    ∃ tc, (rewriteTarHeaders fn input closeErr).trace
      = (rewriteLoop fn input TarWriter.new { delivered := [], werr := none }).trace
        ++ [.tarClose tc, .inputClose closeErr] := by
  unfold rewriteTarHeaders
  simp only [hb, Bool.false_eq_true, if_false]
  refine ⟨Close_werr _ _, ?_⟩
  rw [List.append_nil]
  exact ⟨_, rfl⟩

/-- The run when the loop is left by `break`: the pipe writer is closed, then
the deferred calls follow. -/
theorem rewriteTarHeaders_broke (fn : Header → Header) (input : TarInput)
    (closeErr : Option Err)
    (hb : (rewriteLoop fn input TarWriter.new { delivered := [], werr := none }).broke = true) :
    ∃ tc, (rewriteTarHeaders fn input closeErr).trace
      = (rewriteLoop fn input TarWriter.new { delivered := [], werr := none }).trace
        ++ [.pipeClose, .tarClose tc, .inputClose closeErr] := by
  unfold rewriteTarHeaders
  simp only [hb, if_true, Pipe.close]
  rw [List.append_assoc]
  exact ⟨_, rfl⟩

/-- C8: in every run of `rewriteTarHeaders` the last step is the close of the
input stream; and when reading the next header, writing a rewritten header or
copying a body fails with an error `e`, then `e` is not `io.EOF`, it is what
the consumer's read returns once the chunks are drained, and after the failed
step come only `CloseWithError(e)` and the two deferred closes: no further
entry is processed, and no step before it failed. -/
theorem rewrite_failure_reaches_consumer (fn : Header → Header) (input : TarInput)
    (closeErr : Option Err) :
    (∃ init, (rewriteTarHeaders fn input closeErr).trace = init ++ [.inputClose closeErr]) ∧
    ∀ s e, s ∈ (rewriteTarHeaders fn input closeErr).trace → s.failure = some e →
      (rewriteTarHeaders fn input closeErr).pipe.werr = some e ∧ e ≠ .eof ∧
      ∃ pre tc, (rewriteTarHeaders fn input closeErr).trace
          = pre ++ [s, .closeWithError e, .tarClose tc, .inputClose closeErr] ∧
        ∀ t ∈ pre, t.failure = none := by
  rcases rewriteLoop_spec fn input TarWriter.new { delivered := [], werr := none } rfl rfl with
    ⟨hb, _, hall⟩ | ⟨hb, pre, s0, e0, htr, hs0, he0, hpre, hwe⟩
  · obtain ⟨tc, ht⟩ := rewriteTarHeaders_broke fn input closeErr hb
    refine ⟨⟨(rewriteLoop fn input TarWriter.new { delivered := [], werr := none }).trace
      ++ [.pipeClose, .tarClose tc], by rw [ht]; simp⟩, ?_⟩
    intro s e hs hf
    exfalso
    rw [ht] at hs
    simp at hs
    rcases hs with hs | rfl | rfl | rfl
    · rw [hall s hs] at hf; cases hf
    · cases hf
    · cases hf
    · cases hf
  · obtain ⟨hw, tc, ht⟩ := rewriteTarHeaders_returned fn input closeErr hb
    refine ⟨⟨(rewriteLoop fn input TarWriter.new { delivered := [], werr := none }).trace
      ++ [.tarClose tc], by rw [ht]; simp⟩, ?_⟩
    intro s e hs hf
    rw [ht, htr] at hs
    simp at hs
    have hse : s = s0 ∧ e = e0 := by
      rcases hs with hs | rfl | rfl | rfl | rfl
      · rw [hpre s hs] at hf; cases hf
      · rw [hs0] at hf; exact ⟨rfl, (Option.some.inj hf).symm⟩
      · cases hf
      · cases hf
      · cases hf
    obtain ⟨rfl, rfl⟩ := hse
    refine ⟨by rw [hw, hwe], he0, pre, tc, ?_, hpre⟩
    rw [ht, htr]
    simp

/-- C8, at a concrete input: reading the body of the one entry fails. -/
theorem rewrite_failure_reaches_consumer_witness :
    (rewriteTarHeaders id (.entry (fileHeader "venv/bin/python".toList 2) [7] (some (.other 5))
      (.done .eof)) none).pipe.werr = some (.other 5) :=
  ((rewrite_failure_reaches_consumer id (.entry (fileHeader "venv/bin/python".toList 2) [7]
    (some (.other 5)) (.done .eof)) none).2 (.copy (some (.other 5))) (.other 5)
    (by decide) rfl).1

/-- The buffer of a stack of components is the root followed by the relative
path of the components. -/
theorem bufR_reverse (st : List GoString) : (bufR st).reverse = '/' :: tailR st := by
  induction st with
  | nil => rfl
  | cons c st ih =>
    cases st with
    | nil => simp [bufR, tailR]
    | cons d st => simp [bufR, tailR, ih]

/-- The buffer of a stack with a component holds at least two bytes. -/
theorem bufR_length (c : GoString) (st : List GoString) (hc : c ≠ []) :
    1 < (bufR (c :: st)).length := by
  cases c with
  | nil => exact absurd rfl hc
  | cons x c =>
    cases st with
    | nil => simp [bufR]
    | cons d st =>
      simp only [bufR, List.reverse_cons, List.length_append, List.length_cons]
      omega

/-- Backtracking over bytes that are no separators stops behind the
separator before them. -/
theorem backtrack_to_sep (w : List Char) (x : Char) (B : List Char) (hx : x ≠ '/')
    (hw : ∀ c ∈ w, c ≠ '/') (hB : B ≠ []) : backtrack 1 x (w ++ '/' :: B) = B := by
  induction w generalizing x with
  | nil =>
    cases B with
    | nil => exact absurd rfl hB
    | cons b B => simp [backtrack, isPathSeparator, hx]
  | cons y w ih =>
    have hy : y ≠ '/' := hw y (by simp)
    simp only [List.cons_append, backtrack]
    rw [if_pos ⟨by simp, by simp [isPathSeparator, hx]⟩]
    exact ih y hy fun c hc => hw c (by simp [hc])

/-- Backtracking over the first component stops at the root. -/
theorem backtrack_to_root (w : List Char) (x : Char) (hx : x ≠ '/')
    (hw : ∀ c ∈ w, c ≠ '/') : backtrack 1 x (w ++ ['/']) = ['/'] := by
  induction w generalizing x with
  | nil => simp [backtrack]
  | cons y w ih =>
    have hy : y ≠ '/' := hw y (by simp)
    simp only [List.cons_append, backtrack]
    rw [if_pos ⟨by simp, by simp [isPathSeparator, hx]⟩]
    exact ih y hy fun c hc => hw c (by simp [hc])

/-- Backtracking on the buffer of a stack drops its last component. -/
theorem backtrack_bufR (c : GoString) (st : List GoString) (hc : IsComp c) :
    ∃ x l, bufR (c :: st) = x :: l ∧ backtrack 1 x l = bufR st := by
  obtain ⟨hne, -, -, hsep⟩ := hc
  have hrev : c.reverse ≠ [] := by simpa using hne
  obtain ⟨x, w, hxw⟩ := List.exists_cons_of_ne_nil hrev
  have hmem : ∀ y ∈ x :: w, y ≠ '/' := by
    intro y hy
    rw [← hxw] at hy
    intro h
    rw [h] at hy
    exact hsep (List.mem_reverse.mp hy)
  have hx : x ≠ '/' := hmem x (by simp)
  have hw : ∀ y ∈ w, y ≠ '/' := fun y hy => hmem y (by simp [hy])
  cases st with
  | nil =>
    refine ⟨x, w ++ ['/'], by simp [bufR, hxw], ?_⟩
    simpa [bufR] using backtrack_to_root w x hx hw
  | cons d st =>
    refine ⟨x, w ++ '/' :: bufR (d :: st), by simp [bufR, hxw], ?_⟩
    apply backtrack_to_sep w x _ hx hw
    cases st <;> simp [bufR]

/-- Where no byte is copied, the path is at a boundary. -/
theorem atBoundary_of_takeWhile_nil (l : List Char)
    (h : (l.takeWhile fun d => !isPathSeparator d) = []) : atBoundary l = true := by
  cases l with
  | nil => rfl
  | cons d l =>
    by_cases hd : isPathSeparator d = true
    · simpa [atBoundary] using hd
    · simp [List.takeWhile, hd] at h

/-- The element copied in the default case of `filepath.Clean` is a normal
component. -/
theorem takeWhile_isComp (c : Char) (rest : List Char) (h1 : ¬ isPathSeparator c = true)
    (h2 : ¬ (c = '.' ∧ atBoundary rest = true))
    (h3 : ¬ (c = '.' ∧ rest.head? = some '.' ∧ atBoundary rest.tail = true)) :
    IsComp ((c :: rest).takeWhile fun d => !isPathSeparator d) := by
  have hc : (!isPathSeparator c) = true := by simpa using h1
  have he : ((c :: rest).takeWhile fun d => !isPathSeparator d)
      = c :: rest.takeWhile fun d => !isPathSeparator d := by
    simp [List.takeWhile, hc]
  rw [he]
  refine ⟨by simp, ?_, ?_, ?_⟩
  · intro h
    simp only [List.cons.injEq] at h
    exact h2 ⟨h.1, atBoundary_of_takeWhile_nil rest h.2⟩
  · intro h
    simp only [List.cons.injEq] at h
    obtain ⟨hc1, hr⟩ := h
    cases rest with
    | nil => simp at hr
    | cons d rest =>
      by_cases hd : isPathSeparator d = true
      · simp [List.takeWhile, hd] at hr
      · simp only [Bool.not_eq_true] at hd
        simp only [List.takeWhile, hd, Bool.not_false, List.cons.injEq] at hr
        exact h3 ⟨hc1, by simp [hr.1], atBoundary_of_takeWhile_nil rest hr.2⟩
  · intro h
    rcases List.mem_cons.mp h with h | h
    · rw [← h] at h1
      exact h1 rfl
    · have := List.mem_takeWhile_imp h
      simp [isPathSeparator] at this

/-- Appending a normal component to the buffer of a stack, with the separator
that the default case of `filepath.Clean` adds, gives the buffer of the stack
with the component on top. -/
theorem push_bufR (e : GoString) (st : List GoString) (hst : ∀ c ∈ st, IsComp c) :
    e.reverse ++ (if (bufR st).length ≠ 1 then '/' :: bufR st else bufR st)
      = bufR (e :: st) := by
  cases st with
  | nil => simp [bufR]
  | cons d st =>
    have := bufR_length d st (hst d (by simp)).1
    have hne : (bufR (d :: st)).length ≠ 1 := by omega
    simp [bufR, hne]

/-- The loop of `filepath.Clean` on a rooted path keeps the buffer that of a
stack of normal components, whatever the fuel. -/
theorem cleanLoop_good (fuel : Nat) (path : List Char) (st : List GoString)
    (hst : ∀ c ∈ st, IsComp c) :
    ∃ st2, (∀ c ∈ st2, IsComp c) ∧ cleanLoop true fuel path (bufR st) 1 = bufR st2 := by
  induction fuel generalizing path st with
  | zero => exact ⟨st, hst, rfl⟩
  | succ fuel ih =>
    cases path with
    | nil => exact ⟨st, hst, rfl⟩
    | cons c rest =>
      simp only [cleanLoop]
      by_cases h1 : isPathSeparator c = true
      · rw [if_pos h1]
        exact ih rest st hst
      · rw [if_neg h1]
        by_cases h2 : c = '.' ∧ atBoundary rest = true
        · rw [if_pos h2]
          exact ih rest st hst
        · rw [if_neg h2]
          by_cases h3 : c = '.' ∧ rest.head? = some '.' ∧ atBoundary rest.tail = true
          · rw [if_pos h3]
            cases st with
            | nil =>
              simp only [bufR, List.length_singleton, lt_self_iff_false, if_false,
                Bool.true_eq_false]
              exact ih rest.tail [] hst
            | cons d st =>
              have hd : IsComp d := hst d (by simp)
              rw [if_pos (bufR_length d st hd.1)]
              obtain ⟨x, l, hxl, hbt⟩ := backtrack_bufR d st hd
              rw [hxl]
              simp only []
              rw [hbt]
              exact ih rest.tail st fun c hc => hst c (by simp [hc])
          · rw [if_neg h3]
            have hout : (if True ∧ (bufR st).length ≠ 1 ∨ true = false ∧ (bufR st).length ≠ 0
                then '/' :: bufR st else bufR st)
                = if (bufR st).length ≠ 1 then '/' :: bufR st else bufR st := by simp
            rw [hout, push_bufR _ st hst]
            apply ih
            intro e he
            rcases List.mem_cons.mp he with rfl | he
            · exact takeWhile_isComp c rest h1 h2 h3
            · exact hst e he

/-- The function `filepath.Clean` maps a rooted path to the root followed by
normal components, joined by single separators. -/
theorem Clean_rooted (s : GoString) :
    ∃ st, (∀ c ∈ st, IsComp c) ∧ Clean ('/' :: s) = '/' :: tailR st := by
  obtain ⟨st, hst, h⟩ := cleanLoop_good (s.length + 1) s [] (by simp)
  refine ⟨st, hst, ?_⟩
  have hb : bufR [] = ['/'] := rfl
  rw [hb] at h
  have hlen : (bufR st).length ≠ 0 := by
    rw [← List.length_reverse, bufR_reverse]
    simp
  simp only [Clean, isPathSeparator, beq_self_eq_true, if_true, List.length_cons, List.tail_cons]
  rw [h, if_neg hlen, bufR_reverse]

/-- The function `strings.Split` never returns the empty list. -/
theorem splitSep_ne_nil (s : GoString) : splitSep s ≠ [] := by
  cases s with
  | nil => simp [splitSep]
  | cons c s =>
    simp only [splitSep]
    split
    · simp
    · split <;> simp

/-- A string without separator is its one component. -/
theorem splitSep_comp (c : GoString) (hc : '/' ∉ c) : splitSep c = [c] := by
  induction c with
  | nil => rfl
  | cons x c ih =>
    have hx : x ≠ '/' := fun h => hc (by simp [h])
    have hc2 : '/' ∉ c := fun h => hc (by simp [h])
    simp [splitSep, hx, ih hc2]

/-- The components of two strings joined by a separator. -/
theorem splitSep_append (a b : GoString) :
    splitSep (a ++ '/' :: b) = splitSep a ++ splitSep b := by
  induction a with
  | nil => simp [splitSep]
  | cons x a ih =>
    by_cases hx : x = '/'
    · simp [splitSep, hx, ih]
    · have e1 : splitSep (x :: a ++ '/' :: b)
          = match splitSep (a ++ '/' :: b) with
            | [] => [[x]]
            | y :: ys => (x :: y) :: ys := by
        simp only [List.cons_append, splitSep, hx, if_false]
        rfl
      have e2 : splitSep (x :: a)
          = match splitSep a with
            | [] => [[x]]
            | y :: ys => (x :: y) :: ys := by
        simp only [splitSep, hx, if_false]
      rw [e1, e2, ih]
      cases h : splitSep a with
      | nil => exact absurd h (splitSep_ne_nil a)
      | cons y ys => simp

/-- The components of the relative path of a stack are those of the stack. -/
theorem splitSep_tailR (st : List GoString) (hst : ∀ c ∈ st, IsComp c) :
    ∀ x ∈ splitSep (tailR st), x = [] ∨ x ∈ st := by
  induction st with
  | nil => simp [tailR, splitSep]
  | cons c st ih =>
    have hc : '/' ∉ c := (hst c (by simp)).2.2.2
    cases st with
    | nil =>
      intro x hx
      simp only [tailR, splitSep_comp c hc, List.mem_singleton] at hx
      simp [hx]
    | cons d st =>
      intro x hx
      simp only [tailR, splitSep_append, splitSep_comp c hc, List.mem_append,
        List.mem_singleton] at hx
      rcases hx with hx | hx
      · rcases ih (fun e he => hst e (by simp [he])) x hx with h | h
        · exact Or.inl h
        · exact Or.inr (List.mem_cons_of_mem _ h)
      · simp [hx]

/-- The relative path of a stack of normal components does not begin with a
separator. -/
theorem tailR_head (st : List GoString) (hst : ∀ c ∈ st, IsComp c) :
    (tailR st).head? ≠ some '/' := by
  induction st with
  | nil => simp [tailR]
  | cons c st ih =>
    obtain ⟨hne, -, -, hsep⟩ := hst c (by simp)
    cases st with
    | nil =>
      cases c with
      | nil => exact absurd rfl hne
      | cons x c =>
        simp only [tailR, List.head?_cons, ne_eq, Option.some.injEq]
        intro h
        exact hsep (by simp [h])
    | cons d st =>
      have h2 := ih fun e he => hst e (by simp [he])
      simp only [tailR] at h2 ⊢
      cases h : tailR (d :: st) with
      | nil =>
        exfalso
        have hd := (hst d (by simp)).1
        cases st with
        | nil => simp only [tailR] at h; exact hd h
        | cons e st => simp [tailR] at h
      | cons y ys =>
        rw [h] at h2
        simpa using h2

/-- Trimming the root off a rooted path. -/
theorem trimPrefix_root (t : GoString) : trimPrefix ('/' :: t) ['/'] = t := by
  simp [trimPrefix, hasPrefix]

/-- The directory of a rooted path is the clean form of a rooted path. -/
theorem Dir_rooted (t : GoString) : ∃ u, Dir ('/' :: t) = Clean ('/' :: u) := by
  have h : ∀ l : List Char, ∃ w, (l ++ ['/']).dropWhile (fun d => !isPathSeparator d)
      = w ++ ['/'] := by
    intro l
    induction l with
    | nil => exact ⟨[], by simp [List.dropWhile, isPathSeparator]⟩
    | cons x l ih =>
      by_cases hx : isPathSeparator x = true
      · exact ⟨x :: l, by simp [List.dropWhile, hx]⟩
      · obtain ⟨w, hw⟩ := ih
        simp only [Bool.not_eq_true] at hx
        exact ⟨w, by simp [List.dropWhile, hx, hw]⟩
  obtain ⟨w, hw⟩ := h t.reverse
  refine ⟨w.reverse, ?_⟩
  simp only [Dir, List.reverse_cons, hw, List.reverse_append, List.reverse_singleton,
    List.singleton_append, List.reverse_nil, List.nil_append, List.cons_append]

/-- C9: for every wildcard segment `s` and every entry with any name, the name
that the transform of the handler gives the entry, with
`venvDir = filepath.Dir(filepath.Clean("/" + s))`, does not begin with a
separator and has no `.` and no `..` among its path components. -/
theorem renamed_entry_stays_inside (s : GoString) (h : Header) :
    (renameHeader (Dir (Clean ('/' :: s))) h).name.head? ≠ some '/' ∧
    ['.'] ∉ splitSep (renameHeader (Dir (Clean ('/' :: s))) h).name ∧
    ['.', '.'] ∉ splitSep (renameHeader (Dir (Clean ('/' :: s))) h).name := by
  obtain ⟨st0, -, hv⟩ := Clean_rooted s
  obtain ⟨u, hu⟩ := Dir_rooted (tailR st0)
  obtain ⟨st1, -, hd⟩ := Clean_rooted u
  obtain ⟨st, hst, hj⟩ := Clean_rooted (tailR st1 ++ '/' :: h.name)
  have hname : (renameHeader (Dir (Clean ('/' :: s))) h).name = tailR st := by
    simp only [renameHeader, hv, hu, hd, Join, joinSep, ne_eq, reduceCtorEq, not_false_eq_true,
      if_true, List.cons_append]
    rw [hj, trimPrefix_root]
  rw [hname]
  refine ⟨tailR_head st hst, ?_, ?_⟩
  · intro hmem
    rcases splitSep_tailR st hst _ hmem with h0 | h0
    · simp at h0
    · exact (hst _ h0).2.1 rfl
  · intro hmem
    rcases splitSep_tailR st hst _ hmem with h0 | h0
    · simp at h0
    · exact (hst _ h0).2.2.1 rfl

/-- The loop of `filepath.Clean` does not depend on the fuel, once the fuel is
the length of the path or more: the loop ends before the fuel does. -/
theorem cleanLoop_fuel (rooted : Bool) (f1 f2 : Nat) (path out : List Char) (dotdot : Nat)
    (h1 : path.length ≤ f1) (h2 : path.length ≤ f2) :
    cleanLoop rooted f1 path out dotdot = cleanLoop rooted f2 path out dotdot := by
  induction f1 generalizing f2 path out dotdot with
  | zero =>
    have hp : path = [] := List.length_eq_zero.mp (Nat.le_zero.mp h1)
    subst hp
    cases f2 <;> rfl
  | succ f1 ih =>
    cases f2 with
    | zero =>
      have hp : path = [] := List.length_eq_zero.mp (Nat.le_zero.mp h2)
      subst hp
      rfl
    | succ f2 =>
      cases path with
      | nil => rfl
      | cons c rest =>
        have hr1 : rest.length ≤ f1 := by simpa using h1
        have hr2 : rest.length ≤ f2 := by simpa using h2
        have ht : rest.tail.length ≤ rest.length := by simp
        simp only [cleanLoop]
        by_cases c1 : isPathSeparator c = true
        · rw [if_pos c1, if_pos c1]
          exact ih f2 rest out dotdot hr1 hr2
        · rw [if_neg c1, if_neg c1]
          by_cases c2 : c = '.' ∧ atBoundary rest = true
          · rw [if_pos c2, if_pos c2]
            exact ih f2 rest out dotdot hr1 hr2
          · rw [if_neg c2, if_neg c2]
            by_cases c3 : c = '.' ∧ rest.head? = some '.' ∧ atBoundary rest.tail = true
            · rw [if_pos c3, if_pos c3]
              split
              · split <;> exact ih f2 _ _ _ (by omega) (by omega)
              · split <;> exact ih f2 _ _ _ (by omega) (by omega)
            · rw [if_neg c3, if_neg c3]
              have hd : ((c :: rest).dropWhile fun d => !isPathSeparator d).length
                  ≤ rest.length := by
                have hc : (!isPathSeparator c) = true := by simpa using c1
                simp only [List.dropWhile, hc]
                exact (List.dropWhile_sublist _).length_le
              exact ih f2 _ _ _ (by omega) (by omega)

/-- The loop at the end of the path. -/
theorem cleanFull_nil (out : List Char) : cleanFull [] out = out := rfl

/-- The loop skips a separator. -/
theorem cleanFull_sep (p out : List Char) : cleanFull ('/' :: p) out = cleanFull p out := by
  unfold cleanFull
  simp only [List.length_cons, cleanLoop, isPathSeparator, beq_self_eq_true, if_true]

/-- The function `filepath.Clean` on a rooted path, by the loop. -/
theorem Clean_eq_cleanFull (s : GoString) :
    Clean ('/' :: s) = (cleanFull s ['/']).reverse := by
  obtain ⟨st, -, h⟩ := cleanLoop_good s.length s [] (by simp)
  have hb : bufR [] = ['/'] := rfl
  rw [hb] at h
  have hlen : (bufR st).length ≠ 0 := by
    rw [← List.length_reverse, bufR_reverse]
    simp
  simp only [Clean, isPathSeparator, beq_self_eq_true, if_true, List.length_cons, List.tail_cons]
  rw [cleanLoop_fuel true (s.length + 1) s.length s ['/'] 1 (by omega) (le_refl _)]
  unfold cleanFull
  rw [h, if_neg hlen]

/-- At a boundary no byte is copied and none is dropped. -/
theorem takeWhile_dropWhile_boundary (p : List Char) (hp : atBoundary p = true) :
    (p.takeWhile fun d => !isPathSeparator d) = [] ∧
    (p.dropWhile fun d => !isPathSeparator d) = p := by
  cases p with
  | nil => simp
  | cons d p =>
    have hd : isPathSeparator d = true := by simpa [atBoundary] using hp
    simp [List.takeWhile, List.dropWhile, hd]

/-- The bytes of a normal component are no separators. -/
theorem IsComp.not_sep (c : GoString) (hc : IsComp c) :
    ∀ a ∈ c, (!isPathSeparator a) = true := by
  intro a ha
  have : a ≠ '/' := fun h => hc.2.2.2 (h ▸ ha)
  simp [isPathSeparator, this]

/-- The loop copies a normal component that ends at a boundary onto the
stack. -/
theorem cleanFull_comp (c : GoString) (p : List Char) (st : List GoString) (hc : IsComp c)
    (hp : atBoundary p = true) (hst : ∀ e ∈ st, IsComp e) :
    cleanFull (c ++ p) (bufR st) = cleanFull p (bufR (c :: st)) := by
  have hns := IsComp.not_sep c hc
  obtain ⟨htk, hdr⟩ := takeWhile_dropWhile_boundary p hp
  have htake : ((c ++ p).takeWhile fun d => !isPathSeparator d) = c := by
    rw [List.takeWhile_append_of_pos hns, htk, List.append_nil]
  have hdrop : ((c ++ p).dropWhile fun d => !isPathSeparator d) = p := by
    rw [List.dropWhile_append_of_pos hns, hdr]
  obtain ⟨hne, hdot, hdotdot, hsep⟩ := hc
  cases c with
  | nil => exact absurd rfl hne
  | cons x c =>
    have hx : ¬ isPathSeparator x = true := by
      have := hns x (by simp)
      simpa using this
    have h2 : ¬ (x = '.' ∧ atBoundary (c ++ p) = true) := by
      rintro ⟨rfl, hb⟩
      cases c with
      | nil => exact hdot rfl
      | cons y c =>
        have := hns y (by simp)
        simp [atBoundary] at hb
        simp [hb] at this
    have h3 : ¬ (x = '.' ∧ (c ++ p).head? = some '.' ∧ atBoundary (c ++ p).tail = true) := by
      rintro ⟨rfl, hh, hb⟩
      cases c with
      | nil =>
        cases p with
        | nil => simp at hh
        | cons d p =>
          simp only [List.nil_append, List.head?_cons, Option.some.injEq] at hh
          subst hh
          simp [atBoundary, isPathSeparator] at hp
      | cons y c =>
        simp only [List.cons_append, List.head?_cons, Option.some.injEq] at hh
        subst hh
        cases c with
        | nil => exact hdotdot rfl
        | cons z c =>
          have := hns z (by simp)
          simp [atBoundary] at hb
          simp [hb] at this
    have hout : (if True ∧ (bufR st).length ≠ 1 ∨ true = false ∧ (bufR st).length ≠ 0
        then '/' :: bufR st else bufR st)
        = if (bufR st).length ≠ 1 then '/' :: bufR st else bufR st := by simp
    unfold cleanFull
    simp only [List.cons_append, List.length_cons, cleanLoop]
    rw [if_neg hx, if_neg h2, if_neg h3, hout]
    simp only [List.cons_append] at htake hdrop
    rw [htake, hdrop, push_bufR _ st hst]
    exact cleanLoop_fuel true _ _ p _ 1 (by simp) (le_refl _)

/-- The function `strings.Join` with one more element at the end. -/
theorem joinSep_concat (l : List GoString) (c : GoString) (hl : l ≠ []) :
    joinSep (l ++ [c]) = joinSep l ++ '/' :: c := by
  induction l with
  | nil => exact absurd rfl hl
  | cons a l ih =>
    cases l with
    | nil => simp [joinSep]
    | cons b l =>
      have := ih (by simp)
      simp only [List.cons_append] at this
      simp [joinSep, this]

/-- The relative path of a stack is its components joined, the first pushed
first. -/
theorem tailR_eq_joinSep (st : List GoString) : tailR st = joinSep st.reverse := by
  induction st with
  | nil => rfl
  | cons c st ih =>
    cases st with
    | nil => simp [tailR, joinSep]
    | cons d st =>
      simp only [tailR, ih]
      rw [List.reverse_cons (a := c), joinSep_concat _ c (by simp)]

/-- The loop copies a path of normal components, joined by separators and
ending at a boundary, onto the stack. -/
theorem cleanFull_joinSep (cs : List GoString) (p : List Char) (st : List GoString)
    (hcs : ∀ e ∈ cs, IsComp e) (hp : atBoundary p = true) (hst : ∀ e ∈ st, IsComp e) :
    cleanFull (joinSep cs ++ p) (bufR st) = cleanFull p (bufR (cs.reverse ++ st)) := by
  induction cs generalizing st with
  | nil => simp [joinSep]
  | cons c cs ih =>
    have hc : IsComp c := hcs c (by simp)
    have hcs2 : ∀ e ∈ cs, IsComp e := fun e he => hcs e (by simp [he])
    have hst2 : ∀ e ∈ c :: st, IsComp e := by
      intro e he
      rcases List.mem_cons.mp he with rfl | he
      · exact hc
      · exact hst e he
    cases cs with
    | nil =>
      simp only [joinSep, List.reverse_cons, List.reverse_nil, List.nil_append,
        List.singleton_append]
      exact cleanFull_comp c p st hc hp hst
    | cons d cs =>
      have := ih (c :: st) hcs2 hst2
      simp only [joinSep, List.append_assoc, List.cons_append]
      rw [cleanFull_comp c _ st hc (by simp [atBoundary, isPathSeparator]) hst, cleanFull_sep]
      rw [this]
      simp

/-- The function `strings.Join` on a first element and more. -/
theorem joinSep_cons_ne (a : GoString) (l : List GoString) (hl : l ≠ []) :
    joinSep (a :: l) = a ++ '/' :: joinSep l := by
  cases l with
  | nil => exact absurd rfl hl
  | cons b l => rfl

/-- Joining a joined first part with the rest is joining all. -/
theorem joinSep_flatten (l : List GoString) (b : GoString) (rs : List GoString) :
    joinSep (joinSep (l ++ [b]) :: rs) = joinSep (l ++ b :: rs) := by
  induction l with
  | nil => simp [joinSep]
  | cons a l ih =>
    simp only [List.cons_append]
    rw [joinSep_cons_ne a (l ++ [b]) (by simp), joinSep_cons_ne a (l ++ b :: rs) (by simp), ← ih]
    cases rs with
    | nil => simp [joinSep]
    | cons r rs =>
      rw [joinSep_cons_ne _ (r :: rs) (by simp), joinSep_cons_ne _ (r :: rs) (by simp)]
      simp

/-- The reversed path of a stack is its buffer. -/
theorem reverse_root_tailR (st : List GoString) : ('/' :: tailR st).reverse = bufR st := by
  rw [← bufR_reverse, List.reverse_reverse]

/-- The buffer of a stack begins with its last component, reversed, and a
separator. -/
theorem bufR_cons (b : GoString) (ds : List GoString) :
    ∃ R, bufR (b :: ds) = b.reverse ++ '/' :: R ∧
      ('/' :: R).reverse = if ds = [] then ['/'] else '/' :: tailR ds ++ ['/'] := by
  cases ds with
  | nil => exact ⟨[], by simp [bufR], by simp⟩
  | cons d ds =>
    refine ⟨bufR (d :: ds), by simp [bufR], ?_⟩
    simp [bufR_reverse]

/-- The directory of a normal path with a last component is the path of the
components before it. -/
theorem Dir_normal (b : GoString) (ds : List GoString) (hst : ∀ e ∈ b :: ds, IsComp e) :
    Dir ('/' :: tailR (b :: ds)) = '/' :: tailR ds := by
  have hb := IsComp.not_sep b (hst b (by simp))
  have hbr : ∀ a ∈ b.reverse, (!isPathSeparator a) = true :=
    fun a ha => hb a (List.mem_reverse.mp ha)
  obtain ⟨R, hR, hrev⟩ := bufR_cons b ds
  unfold Dir
  rw [reverse_root_tailR, hR, List.dropWhile_append_of_pos hbr]
  have hd : (('/' :: R).dropWhile fun d => !isPathSeparator d) = '/' :: R := by
    simp [List.dropWhile, isPathSeparator]
  rw [hd, hrev]
  cases ds with
  | nil => rfl
  | cons d ds =>
    have hds : ∀ e ∈ (d :: ds).reverse, IsComp e :=
      fun e he => hst e (List.mem_cons_of_mem _ (List.mem_reverse.mp he))
    simp only [reduceCtorEq, if_false, List.cons_append]
    rw [Clean_eq_cleanFull, tailR_eq_joinSep]
    have h := cleanFull_joinSep (d :: ds).reverse ['/'] [] hds rfl (by simp)
    have hb0 : bufR [] = ['/'] := rfl
    rw [hb0] at h
    rw [h, cleanFull_sep, cleanFull_nil, List.reverse_reverse, List.append_nil, bufR_reverse,
      tailR_eq_joinSep]

/-- The base of a normal path is its last component. -/
theorem Base_normal (b : GoString) (ds : List GoString) (hst : ∀ e ∈ b :: ds, IsComp e) :
    Base ('/' :: tailR (b :: ds)) = b := by
  have hcb := hst b (by simp)
  have hb := IsComp.not_sep b hcb
  have hbr : ∀ a ∈ b.reverse, (!isPathSeparator a) = true :=
    fun a ha => hb a (List.mem_reverse.mp ha)
  obtain ⟨R, hR, -⟩ := bufR_cons b ds
  have hrne : b.reverse ≠ [] := by simpa using hcb.1
  obtain ⟨x, w, hxw⟩ := List.exists_cons_of_ne_nil hrne
  have hx : isPathSeparator x = false := by
    have := hbr x (by simp [hxw])
    simpa using this
  have hstrip : (('/' :: tailR (b :: ds)).reverse.dropWhile isPathSeparator)
      = b.reverse ++ '/' :: R := by
    rw [reverse_root_tailR, hR, hxw]
    simp [List.dropWhile, hx]
  have htake : ((b.reverse ++ '/' :: R).takeWhile fun d => !isPathSeparator d) = b.reverse := by
    rw [List.takeWhile_append_of_pos hbr]
    simp [List.takeWhile, isPathSeparator]
  unfold Base
  rw [if_neg (by simp)]
  simp only [hstrip, htake, List.reverse_reverse]
  rw [if_neg hcb.1]

/-- A stack of normal components whose relative path is empty is empty. -/
theorem tailR_eq_nil (st : List GoString) (hst : ∀ e ∈ st, IsComp e) (h : tailR st = []) :
    st = [] := by
  cases st with
  | nil => rfl
  | cons c st =>
    exfalso
    have hc := (hst c (by simp)).1
    cases st with
    | nil => exact hc h
    | cons d st => simp [tailR] at h

/-- C4: let `v` be the normalised target path `filepath.Clean("/" + s)`, other
than `/`, and let an exported entry be named `filepath.Base(v)`, or
`filepath.Base(v)` followed by normal path components `rs`, all joined by
single separators (a clean relative path). Then the transform of the handler,
with `venvDir = filepath.Dir(v)`, names the entry `v` without its leading
separator, followed by the same components. -/
theorem renamed_entry_under_target (s : GoString) (rs : List GoString) (h : Header)
    (hv : Clean ('/' :: s) ≠ ['/']) (hrs : ∀ c ∈ rs, IsComp c)
    (hname : h.name = joinSep (Base (Clean ('/' :: s)) :: rs)) :
    (renameHeader (Dir (Clean ('/' :: s))) h).name = joinSep ((Clean ('/' :: s)).tail :: rs) := by
  obtain ⟨st, hst, hc⟩ := Clean_rooted s
  rw [hc] at hv hname ⊢
  cases st with
  | nil => exact absurd rfl hv
  | cons b ds =>
    have hds : ∀ e ∈ ds.reverse, IsComp e :=
      fun e he => hst e (List.mem_cons_of_mem _ (List.mem_reverse.mp he))
    have hds2 : ∀ e ∈ ds, IsComp e := fun e he => hst e (List.mem_cons_of_mem _ he)
    have hbrs : ∀ e ∈ b :: rs, IsComp e := by
      intro e he
      rcases List.mem_cons.mp he with rfl | he
      · exact hst e (by simp)
      · exact hrs e he
    rw [Base_normal b ds hst] at hname
    rw [Dir_normal b ds hst]
    simp only [renameHeader, Join, ne_eq, reduceCtorEq, not_false_eq_true, if_true, joinSep,
      List.cons_append, List.tail_cons, hname]
    rw [Clean_eq_cleanFull, tailR_eq_joinSep ds]
    have h1 := cleanFull_joinSep ds.reverse ('/' :: joinSep (b :: rs)) [] hds rfl (by simp)
    have hb0 : bufR [] = ['/'] := rfl
    rw [hb0] at h1
    rw [h1, cleanFull_sep, List.reverse_reverse, List.append_nil]
    have h2 := cleanFull_joinSep (b :: rs) [] ds hbrs rfl hds2
    rw [List.append_nil] at h2
    rw [h2, cleanFull_nil, bufR_reverse, trimPrefix_root, tailR_eq_joinSep, tailR_eq_joinSep]
    simp only [List.reverse_append, List.reverse_reverse, List.reverse_cons, List.append_assoc,
      List.singleton_append]
    rw [joinSep_flatten]

/-- C4, at a concrete input: for the target `/opt/venv` the entry
`venv/bin/python` is returned as `opt/venv/bin/python`. -/
theorem renamed_entry_under_target_witness :
    Clean ('/' :: "opt/venv".toList) ≠ ['/'] ∧
    (∀ c ∈ ["bin".toList, "python".toList], IsComp c) ∧
    (fileHeader "venv/bin/python".toList 1).name
      = joinSep (Base (Clean ('/' :: "opt/venv".toList)) :: ["bin".toList, "python".toList]) ∧
    (renameHeader (Dir (Clean ('/' :: "opt/venv".toList)))
      (fileHeader "venv/bin/python".toList 1)).name = "opt/venv/bin/python".toList :=
  ⟨by decide, by decide, by decide,
    (renamed_entry_under_target "opt/venv".toList ["bin".toList, "python".toList]
      (fileHeader "venv/bin/python".toList 1) (by decide) (by decide) (by decide)).trans
      (by decide)⟩

/-- The test `venv == "."` of the handler never holds: the clean form of a
rooted path is rooted. -/
theorem Clean_rooted_ne_dot (s : GoString) : Clean ('/' :: s) ≠ ['.'] := by
  obtain ⟨st, -, h⟩ := Clean_rooted s
  rw [h]
  simp

/-- C3, as the code behaves: when the template exists, the body is read and closed
without error, the context is assembled, and the wildcard segment normalises
to the root `/`, the handler does not reject the request: it calls
`ImageBuild` with the build argument `VENV=/`, and the only status it can
still write is 500. -/
theorem root_target_reaches_engine (env : Env) (rootParam wildcard : GoString)
    (context : Stream)
    (hstat : env.statNotExist (Join ["docker".toList, rootParam]) = false)
    (hclose : env.bodyCloseErr = none) (hread : env.bodyReadErr = none)
    (hctx : getContext env (Join ["docker".toList, rootParam]) = .ok context)
    (hroot : Clean ('/' :: wildcard) = ['/']) :
    (∃ ctx ok, Event.imageBuild ctx ['/'] ok ∈ (handler env rootParam wildcard).events) ∧
    ∀ code, (handler env rootParam wildcard).status = some code → code = 500 := by
  unfold handler
  simp only []
  rw [if_neg (by rw [hstat]; simp), hclose]
  simp only [closeOrPanic]
  rw [if_neg (Clean_rooted_ne_dot wildcard), hread]
  simp only [Option.isSome_none, Bool.false_eq_true, if_false, hctx, replaceFileInTar, hroot]
  rw [runDefers_events, runDefers_status]
  generalize replaceFileTarWrapper context.input "/requirements.txt".toList (hdrTmpl env.now)
    env.body = ctx
  unfold stageBuild
  simp only []
  split
  · exact ⟨⟨ctx, false, by simp [Outcome.failed]⟩, by simp [Outcome.failed]⟩
  · split
    · exact ⟨⟨ctx, true, by simp [Outcome.panicked]⟩, by simp [Outcome.panicked]⟩
    · split
      · exact ⟨⟨ctx, true, by simp [Outcome.failed]⟩, by simp [Outcome.failed]⟩
      · split
        · exact ⟨⟨ctx, true, by simp [Outcome.panicked]⟩, by simp [Outcome.panicked]⟩
        · constructor
          · refine ⟨ctx, true, ?_⟩
            apply List.mem_append_left
            unfold stageContainer
            split
            · simp [Outcome.failed]
            · unfold stageStream
              split <;> simp [Outcome.failed]
          · unfold stageContainer
            split
            · simp [Outcome.failed]
            · unfold stageStream
              split <;> simp [Outcome.failed]

/-- C3 as the code behaves, at the failing input: the template `py39` and the empty
wildcard segment. -/
theorem root_target_reaches_engine_witness :
    envOk.statNotExist (Join ["docker".toList, "py39".toList]) = false ∧
    Clean ('/' :: "".toList) = ['/'] ∧
    (∃ ctx ok, Event.imageBuild ctx ['/'] ok ∈ (handler envOk "py39".toList "".toList).events) :=
  ⟨rfl, by decide,
    (root_target_reaches_engine envOk "py39".toList "".toList
      { input := TarInput.ofEntries contextEntries, closeErr := none } rfl rfl rfl rfl
      (by decide)).1⟩

/-- The first loop of `archive.ReplaceFileTarWrapper` on a well-formed archive
none of whose entries is named by the key: every entry is copied, and the
modifier is still pending. -/
theorem wrapLoop_unmatched (key : GoString) (tmpl : Header) (data : Bytes)
    (A : List (Header × Bytes)) (pad : Nat) (d : List Chunk)
    (hwf : ∀ e ∈ A, e.2.length = e.1.size) (hkey : ∀ e ∈ A, e.1.name ≠ key) :
    wrapLoop key tmpl data true (TarInput.ofEntries A) { err := none, remaining := 0, pad := pad }
        { delivered := d, werr := none }
      = { tw := { err := none, remaining := 0, pad := lastPad pad A },
          pipe := { delivered := d ++ passChunks pad A, werr := none },
          pending := true, broke := true } := by
  induction A generalizing pad d with
  | nil => simp [TarInput.ofEntries, wrapLoop, lastPad, passChunks]
  | cons a A ih =>
    obtain ⟨h, c⟩ := a
    have hc : c.length = h.size := hwf (h, c) (by simp)
    have hk : h.name ≠ key := hkey (h, c) (by simp)
    have hwf2 : ∀ e ∈ A, e.2.length = e.1.size := fun e he => hwf e (by simp [he])
    have hkey2 : ∀ e ∈ A, e.1.name ≠ key := fun e he => hkey e (by simp [he])
    simp only [TarInput.ofEntries, wrapLoop]
    rw [if_neg (by simp [hk]), WriteHeader_ready, ← hc]
    simp only []
    rw [copyEntry_exact _ _ _ _ (Or.inl rfl)]
    simp only []
    rw [ih _ _ hwf2 hkey2]
    simp [lastPad, passChunks, hc]

/-- Reading back copied entries that are followed by one more header and its
body. -/
theorem readChunks_passChunks (A : List (Header × Bytes)) (pad k : Nat) (syn : Header)
    (C : Bytes) (cur : Option (Header × Bytes)) (hsyn : C.length = syn.size)
    (hcur : ∀ e ∈ cur, e.2.length = e.1.size) (hA : ∀ e ∈ A, e.2.length = e.1.size) :
    readChunks cur (passChunks pad A ++ .zeros k :: .header syn ::
        (if C = [] then [] else [.data C]))
      = some (cur.toList ++ A ++ [(syn, C)]) := by
  induction A generalizing pad cur with
  | nil =>
    have key : readChunks (some (syn, [])) (if C = [] then [] else [Chunk.data C])
        = some [(syn, C)] := by
      by_cases hC : C = []
      · subst hC
        simp only [if_true, readChunks]
        rw [if_pos (by simpa using hsyn)]
      · simp only [hC, if_false, readChunks, List.nil_append]
        rw [if_pos hsyn]
    cases cur with
    | none =>
      simp only [passChunks, List.nil_append, readChunks]
      rw [key]; simp
    | some e =>
      obtain ⟨h0, b0⟩ := e
      have := hcur (h0, b0) rfl
      simp only at this
      simp only [passChunks, List.nil_append, readChunks]
      rw [if_pos this, key]; simp
  | cons a A ih =>
    obtain ⟨h, c⟩ := a
    have hc : c.length = h.size := hA (h, c) (by simp)
    have hA2 : ∀ e ∈ A, e.2.length = e.1.size := fun e he => hA e (by simp [he])
    have key : readChunks (some (h, []))
        ((if c = [] then [] else [Chunk.data c]) ++ (passChunks (blockPadding h.size) A ++
          .zeros k :: .header syn :: (if C = [] then [] else [.data C])))
        = some ((h, c) :: (A ++ [(syn, C)])) := by
      by_cases hc0 : c = []
      · subst hc0
        simp only [if_true, List.nil_append]
        rw [ih _ (some (h, [])) (by intro e he; cases he; simpa using hc) hA2]
        simp
      · simp only [hc0, if_false, List.singleton_append, readChunks, List.nil_append]
        rw [ih _ (some (h, c)) (by intro e he; cases he; simpa using hc) hA2]
        simp
    have hl : passChunks pad ((h, c) :: A) ++ .zeros k :: .header syn ::
          (if C = [] then [] else [.data C])
        = .zeros pad :: .header h :: ((if c = [] then [] else [Chunk.data c]) ++
          (passChunks (blockPadding h.size) A ++
            .zeros k :: .header syn :: (if C = [] then [] else [.data C]))) := by
      simp [passChunks]
    rw [hl]
    cases cur with
    | none =>
      simp only [readChunks]
      rw [key]; simp
    | some e =>
      obtain ⟨h0, b0⟩ := e
      have := hcur (h0, b0) rfl
      simp only at this
      simp only [readChunks]
      rw [if_pos this, key]; simp

/-- C5, as the code behaves: for every well-formed build context `A` whose entries do
not have the name `/requirements.txt` (the names of an assembled context are
relative, as `requirements.txt`), and every payload `C`, the archive that
`replaceFileInTar("/requirements.txt", C, A)` returns holds every entry of
`A` unchanged, in order, and one entry more, at the end: `/requirements.txt`
with the fixed header and the content `C`. No entry of `A` is replaced. -/
theorem requirements_entry_appended (A : List (Header × Bytes)) (C : Bytes) (now : Nat)
    (hwf : ∀ e ∈ A, e.2.length = e.1.size)
    (hkey : ∀ e ∈ A, e.1.name ≠ "/requirements.txt".toList) :
    readChunks none
        (replaceFileInTar "/requirements.txt".toList C (TarInput.ofEntries A) now).1.delivered
      = some (A ++
          [({ name := "/requirements.txt".toList, size := C.length, mode := 0o600, uid := 0,
              gid := 0, typeflag := '0', modTime := now, accessTime := now, changeTime := now },
            C)]) := by
  unfold replaceFileInTar replaceFileTarWrapper TarWriter.new
  rw [wrapLoop_unmatched _ _ _ A 0 [] hwf hkey]
  simp only [if_true, modifyEntry, hdrTmpl, WriteHeader_ready, List.nil_append]
  have hread := readChunks_passChunks A 0 (lastPad 0 A)
    { name := "/requirements.txt".toList, size := C.length, mode := 0o600, uid := 0,
      gid := 0, typeflag := '0', modTime := now, accessTime := now, changeTime := now }
    C none rfl (by simp) hwf
  by_cases hC : C = []
  · subst hC
    simp only [if_true, List.append_nil] at hread
    simp [Pipe.close, Pipe.closeWithError, TarWriter.Close, TarWriter.Flush, Pipe.write]
    simpa using hread
  · simp only [hC, if_false] at hread
    simp [hC, TarWriter.Write, Pipe.write, Pipe.close, Pipe.closeWithError, TarWriter.Close,
      TarWriter.Flush]
    simpa using hread

/-- C5 as the code behaves, at the failing input: the context holds `Dockerfile` and
`requirements.txt`, the payload is `new`; `requirements.txt` keeps its old
content, and `/requirements.txt` is added at the end. -/
theorem requirements_entry_appended_witness :
    (∀ e ∈ contextEntries, e.2.length = e.1.size) ∧
    (∀ e ∈ contextEntries, e.1.name ≠ "/requirements.txt".toList) ∧
    readChunks none
        (replaceFileInTar "/requirements.txt".toList [110, 101, 119]
          (TarInput.ofEntries contextEntries) 1).1.delivered
      = some (contextEntries ++
          [({ name := "/requirements.txt".toList, size := 3, mode := 0o600, uid := 0, gid := 0,
              typeflag := '0', modTime := 1, accessTime := 1, changeTime := 1 },
            [110, 101, 119])]) :=
  ⟨by decide, by decide,
    requirements_entry_appended contextEntries [110, 101, 119] 1 (by decide) (by decide)⟩

/-- A copy that succeeds wrote the whole body within the bytes expected, and
the body ended on `io.EOF`. -/
theorem copyEntry_success (r pad : Nat) (d : List Chunk) (c : Bytes) (readErr : Option Err)
    (h : (copyEntry { err := none, remaining := r, pad := pad } { delivered := d, werr := none }
      c readErr).2.2 = none) :
    (copyEntry { err := none, remaining := r, pad := pad } { delivered := d, werr := none }
      c readErr).1.remaining = r - c.length ∧
    c.length ≤ r ∧ (readErr = none ∨ readErr = some .eof) := by
  revert h
  unfold copyEntry TarWriter.Write Pipe.write
  by_cases hc : c = []
  · cases readErr with
    | none => simp [hc]
    | some e => by_cases he : e = .eof <;> simp [hc, he]
  · have hlen : 0 < c.length := List.length_pos.mpr hc
    by_cases h1 : List.take r c = [] <;> by_cases h2 : r < c.length <;>
      cases readErr with
      | none =>
        simp [hc, h1, h2]
        try (simp [hc] at h1; omega)
        try omega
      | some e =>
        by_cases he : e = .eof <;> simp [hc, h1, h2, he]
        all_goals try (simp [hc] at h1; omega)

/-- When the flush at the end of the input succeeds, no byte was owed at the
start of the loop and the input is balanced. -/
theorem rewriteLoop_flush_ok (fn : Header → Header) (input : TarInput) (tw : TarWriter)
    (p : Pipe) (htw : tw.err = none) (hp : p.werr = none)
    (h : Step.flush none ∈ (rewriteLoop fn input tw p).trace) :
    tw.remaining = 0 ∧ balanced fn input = true := by
  induction input generalizing tw p with
  | done e =>
    obtain ⟨err, remaining, pad⟩ := tw
    obtain ⟨d, w⟩ := p
    simp only at htw hp
    subst htw hp
    unfold rewriteLoop at h
    by_cases he : e = .eof
    · subst he
      cases remaining with
      | zero => simp [balanced]
      | succ n => simp [Flush_owing] at h
    · simp [he] at h
  | entry hd c readErr rest ih =>
    obtain ⟨err, remaining, pad⟩ := tw
    obtain ⟨d, w⟩ := p
    simp only at htw hp
    subst htw hp
    unfold rewriteLoop at h
    cases remaining with
    | succ n => simp [WriteHeader_owing] at h
    | zero =>
      rw [WriteHeader_ready] at h
      simp only at h
      obtain ⟨hq1, hq2, -⟩ := copyEntry_props
        { err := none, remaining := (fn hd).size, pad := blockPadding (fn hd).size }
        { delivered := d ++ [.zeros pad, .header (fn hd)], werr := none } c readErr rfl rfl
      have hs := copyEntry_success (fn hd).size (blockPadding (fn hd).size)
        (d ++ [.zeros pad, .header (fn hd)]) c readErr
      rcases hcp : copyEntry
        { err := none, remaining := (fn hd).size, pad := blockPadding (fn hd).size }
        { delivered := d ++ [.zeros pad, .header (fn hd)], werr := none } c readErr
        with ⟨tw2, p2, eo⟩
      rw [hcp] at h hq1 hq2 hs
      cases eo with
      | some e => simp at h
      | none =>
        simp only at h hq1 hq2 hs
        obtain ⟨hrem, hle, hre⟩ := hs trivial
        have hmem : Step.flush none ∈ (rewriteLoop fn rest tw2 p2).trace := by
          simpa using h
        obtain ⟨h0, hb⟩ := ih tw2 p2 (hq2 trivial) hq1 hmem
        refine ⟨rfl, ?_⟩
        have hlen : c.length = (fn hd).size := by omega
        simp [balanced, hlen, hb, hre]

/-- The flush at the end of the input succeeds exactly when the input is
balanced: it ends normally and every body has the length that its rewritten
header declares. -/
theorem flush_ok_iff_balanced (fn : Header → Header) (input : TarInput)
    (closeErr : Option Err) :
    Step.flush none ∈ (rewriteTarHeaders fn input closeErr).trace ↔ balanced fn input = true := by
  constructor
  · intro h
    have hl : Step.flush none
        ∈ (rewriteLoop fn input TarWriter.new { delivered := [], werr := none }).trace := by
      cases hb : (rewriteLoop fn input TarWriter.new { delivered := [], werr := none }).broke with
      | true =>
        obtain ⟨tc, ht⟩ := rewriteTarHeaders_broke fn input closeErr hb
        rw [ht] at h
        simpa using h
      | false =>
        obtain ⟨-, tc, ht⟩ := rewriteTarHeaders_returned fn input closeErr hb
        rw [ht] at h
        simpa using h
    exact (rewriteLoop_flush_ok fn input TarWriter.new _ rfl rfl hl).2
  · intro hb
    rw [rewriteTarHeaders_balanced fn input closeErr hb]
    have : ∀ A : List (Header × Bytes), Step.flush none ∈ entrySteps fn A := by
      intro A
      induction A with
      | nil => simp [entrySteps]
      | cons a A ih =>
        obtain ⟨h, c⟩ := a
        simp [entrySteps, ih]
    simp [this]

/-- C10, as amended: for every run of `rewriteTarHeaders` whose input ends
normally and in which the flush at the end of the input succeeds (which is
the case exactly when every body has the length that its rewritten header
declares, `flush_ok_iff_balanced`), the pipe writer is closed before the
deferred `Close` of the tar writer runs, that `Close` fails with
`io.ErrClosedPipe`, `closeOrPanic` drops the error (the only panic left is the
one of closing the input), and what the consumer reads are the headers, bodies
and padding of the rewritten entries, followed by `io.EOF`, without a block of
the end-of-archive marker. -/
theorem trailer_never_written (fn : Header → Header) (input : TarInput) (closeErr : Option Err)
    (hflush : Step.flush none ∈ (rewriteTarHeaders fn input closeErr).trace) :
    (rewriteTarHeaders fn input closeErr).trace
      = entrySteps fn input.entries
        ++ [.pipeClose, .tarClose (some .closedPipe), .inputClose closeErr] ∧
    (rewriteTarHeaders fn input closeErr).panics
      = closeOrPanic "failed to close inputTarStream: %w" closeErr ∧
    (rewriteTarHeaders fn input closeErr).pipe
      = { delivered := entryChunks fn 0 input.entries, werr := some .eof } ∧
    Chunk.zeros 512 ∉ (rewriteTarHeaders fn input closeErr).pipe.delivered := by
  have hb := (flush_ok_iff_balanced fn input closeErr).mp hflush
  rw [rewriteTarHeaders_balanced fn input closeErr hb]
  exact ⟨rfl, rfl, rfl, zeros_block_not_mem_entryChunks fn _ 0 (by decide)⟩

/-- C10 as amended, at a concrete input: the export of `/opt/venv` through the
transform of the handler. -/
theorem trailer_never_written_witness :
    Step.flush none ∈ (rewriteTarHeaders (renameHeader "/opt".toList)
      (TarInput.ofEntries exportEntries) none).trace ∧
    Chunk.zeros 512 ∉ (rewriteTarHeaders (renameHeader "/opt".toList)
      (TarInput.ofEntries exportEntries) none).pipe.delivered :=
  ⟨by decide,
    (trailer_never_written (renameHeader "/opt".toList) (TarInput.ofEntries exportEntries) none
      (by decide)).2.2.2⟩

/-- With the key `requirements.txt`, the name that the entry has in the
context, `replaceFileInTar` replaces the entry where it stands, with the fixed
header and the payload, and adds no entry. -/
theorem requirements_replaced_under_relative_key :
    readChunks none
        (replaceFileInTar "requirements.txt".toList [110, 101, 119]
          (TarInput.ofEntries contextEntries) 1).1.delivered
      = some [(fileHeader "Dockerfile".toList 2, [70, 82]),
          ({ name := "requirements.txt".toList, size := 3, mode := 0o600, uid := 0, gid := 0,
             typeflag := '0', modTime := 1, accessTime := 1, changeTime := 1 },
            [110, 101, 119])] := by
  decide

end VenvServer
